import Mathlib

/-! Energy grid simulation.

A shallow embedding of `energy_grid_simulation.c`.

Reading of the C types used throughout:

* `float` values are real numbers and the arithmetic on them is exact
  (`sqrtf`, `sinf`, `cosf` are the real functions, `powf x 3` is `x ^ 3`,
  `fmaxf`/`fminf` are `max`/`min`); the macro `PI`, the decimal expansion of
  `π` to double precision, is `π`;
* where a property turns on the rounding of float operations (the wrap of the reduced
  angle in `fast_sin`, the colour boost of `drawCanvas`), the same statements are
  embedded a second time in float arithmetic, under the names ending in `F32`: every
  `float` operation rounds to nearest, ties to even, with 24 significant bits, every
  `double` operation with 53; exponent limits (overflow, subnormal numbers) are not
  represented, and the statements about these definitions stay where no such limit is
  reached;
* `int` values are integers, `%` is the truncating remainder, a cast
  `(int) v` truncates towards zero;
* `Uint32` values are natural numbers;
* the global arrays `grid`, `sin_table`, `colors`, `pixels` are lookup functions;
* `rand()` is a stream of integers, read at a position that the state counts.
-/

namespace EnergyGrid

/-! ## Constants -/

/-- The macro `WINDOW_WIDTH`. -/
def WINDOW_WIDTH : ℕ := 600

/-- The macro `WINDOW_HEIGHT`. -/
def WINDOW_HEIGHT : ℕ := 600

/-- The macro `GRID_SIZE`. -/
def GRID_SIZE : ℕ := 12

/-- The macro `NUM_COLORS`. -/
def NUM_COLORS : ℕ := 16

/-- The macro `SIN_TABLE_SIZE`. -/
def SIN_TABLE_SIZE : ℕ := 1024

/-- The macro `PI`. -/
noncomputable def PI : ℝ := Real.pi

/-! ## Data model -/

/-- The struct `Cell`. -/
structure Cell where
  energy : ℝ
  frequency : ℝ
  colorIndex : ℤ
  phase : ℝ
  parameterX : ℝ
  parameterY : ℝ
  amplitude : ℝ

/-- The global array `grid[GRID_SIZE][GRID_SIZE]`. -/
abbrev Grid := ℕ → ℕ → Cell

/-- The C library random source: the stream of values `rand()` returns and the
constant `RAND_MAX`. -/
structure Rng where
  rand : ℕ → ℤ
  RAND_MAX : ℤ

/-- What the C standard promises of `rand()`: values in `[0, RAND_MAX]`, with
`RAND_MAX` positive. -/
def Rng.WellFormed (rng : Rng) : Prop :=
  0 < rng.RAND_MAX ∧ ∀ n, 0 ≤ rng.rand n ∧ rng.rand n ≤ rng.RAND_MAX

/-- The mutable globals of the simulation: `grid`, `simulation_time`, and the
number of `rand()` calls made so far. -/
structure State where
  grid : Grid
  simulation_time : ℝ
  rand_calls : ℕ

/-- The cell a zero-initialised global holds. -/
def zeroCell : Cell := ⟨0, 0, 0, 0, 0, 0, 0⟩

/-- The globals at program start, before `initializeGrid`. -/
def startState : State := ⟨fun _ _ => zeroCell, 0, 0⟩

/-- The assignment `grid[x][y] = c`. -/
def setCell (g : Grid) (x y : ℕ) (c : Cell) : Grid :=
  fun i j => if i = x ∧ j = y then c else g i j

/-! ## Numeric helpers of the C library -/

/-- The cast `(int) v` of a float: truncation towards zero. -/
noncomputable def truncf (v : ℝ) : ℤ := if 0 ≤ v then ⌊v⌋ else ⌈v⌉

/-- The C library `fmodf`: the remainder with the sign of `x`. -/
noncomputable def fmodf (x y : ℝ) : ℝ := x - (truncf (x / y) : ℝ) * y

/-- The function `randf`, at the `n`-th call of `rand()`. -/
noncomputable def randf (rng : Rng) (n : ℕ) : ℝ := (rng.rand n : ℝ) / (rng.RAND_MAX : ℝ)

/-- The function `distance`. -/
noncomputable def distance (x1 y1 x2 y2 : ℤ) : ℝ :=
  Real.sqrt (((x2 - x1) * (x2 - x1) + (y2 - y1) * (y2 - y1) : ℤ) : ℝ)

/-! ## Oscillator table -/

/-- The function `initializeSinTable`: the table it leaves in `sin_table`. -/
noncomputable def initializeSinTable : ℕ → ℝ :=
  (List.range SIN_TABLE_SIZE).foldl
    (fun sin_table i =>
      Function.update sin_table i (Real.sin ((i : ℝ) * 2 * PI / (SIN_TABLE_SIZE : ℝ))))
    (fun _ => 0)

/-- The first two statements of `fast_sin`: the angle after `fmodf`, moved up by a full
turn when negative. Exact arithmetic; `reducedAngleF32` is the same with rounding. -/
noncomputable def reducedAngle (x : ℝ) : ℝ :=
  let x := fmodf x (2 * PI)
  if x < 0 then x + 2 * PI else x

/-- The index that `fast_sin` computes from the reduced angle, before the mask:
`(int)(x / (2 * PI) * SIN_TABLE_SIZE)`. -/
noncomputable def rawIndex (x : ℝ) : ℤ := truncf (x / (2 * PI) * (SIN_TABLE_SIZE : ℝ))

/-- The function `fast_sin`, reading the table `sin_table`. -/
noncomputable def fast_sin (sin_table : ℕ → ℝ) (x : ℝ) : ℝ :=
  let x := reducedAngle x
  sin_table (Int.land (rawIndex x) ((SIN_TABLE_SIZE : ℤ) - 1)).toNat

/-! ## Cell state store -/

/-- The function `updateCell`. -/
noncomputable def updateCell (x y : ℕ) (s : State) : State :=
  let cell := s.grid x y
  let cell := { cell with parameterX := Real.cos (cell.energy * 2 * PI) * 5 }
  let cell := { cell with parameterY := Real.sin (cell.energy * 2 * PI) * 5 }
  let cell := { cell with frequency := 1 + cell.energy * 3 }
  let cell := { cell with amplitude := 0.5 + cell.energy * 0.5 }
  { s with grid := setCell s.grid x y cell }

/-- The body of the two loops of `initializeGrid`, at cell `(x, y)`. -/
noncomputable def initializeGridBody (rng : Rng) (x y : ℕ) (s : State) : State :=
  let cell := s.grid x y
  let cell := { cell with energy := randf rng s.rand_calls }
  let cell := { cell with frequency := randf rng (s.rand_calls + 1) * 3 + 1 }
  let cell := { cell with colorIndex := Int.tmod (rng.rand (s.rand_calls + 2)) NUM_COLORS }
  let cell := { cell with phase := randf rng (s.rand_calls + 3) * 2 * PI }
  updateCell x y { s with grid := setCell s.grid x y cell, rand_calls := s.rand_calls + 4 }

/-- The function `initializeGrid`. -/
noncomputable def initializeGrid (rng : Rng) (s : State) : State :=
  (List.range GRID_SIZE).foldl
    (fun s x => (List.range GRID_SIZE).foldl (fun s y => initializeGridBody rng x y s) s) s

/-! ## Perturbation engine -/

/-- The constant `MAX_EFFECT_RADIUS` of `changeCell`. -/
noncomputable def MAX_EFFECT_RADIUS : ℝ := Real.sqrt 2 * (GRID_SIZE : ℝ) / 4

/-- The constant `ENERGY_INCREASE` of `changeCell`. -/
noncomputable def ENERGY_INCREASE : ℝ := 0.8

/-- The constant `COLOR_CHANGE_INTENSITY` of `changeCell`. -/
noncomputable def COLOR_CHANGE_INTENSITY : ℝ := 3.0

/-- The constant `PHASE_CHANGE_INTENSITY` of `changeCell`. -/
noncomputable def PHASE_CHANGE_INTENSITY : ℝ := PI / 2

/-- The value `effect_strength` that `changeCell` computes from `dist` inside the
radius: `powf(1 - dist / MAX_EFFECT_RADIUS, 3)`. -/
noncomputable def effectStrength (dist : ℝ) : ℝ :=
  let effect_strength := 1 - dist / MAX_EFFECT_RADIUS
  effect_strength ^ 3

/-- The body of the two loops of `changeCell`, at cell `(x, y)`. -/
noncomputable def changeCellBody (rng : Rng) (clickedX clickedY : ℤ) (x y : ℕ) (s : State) :
    State :=
  let dist := distance clickedX clickedY x y
  if dist ≤ MAX_EFFECT_RADIUS then
    let effect_strength := effectStrength dist
    let cell := s.grid x y
    let energy_change := ENERGY_INCREASE * effect_strength
    let cell := { cell with energy := max 0 (min 1 (cell.energy + energy_change)) }
    let color_change := truncf (COLOR_CHANGE_INTENSITY * effect_strength)
    let cell := { cell with colorIndex := Int.tmod (cell.colorIndex + color_change) NUM_COLORS }
    let cell := { cell with phase := cell.phase + PHASE_CHANGE_INTENSITY * effect_strength }
    let cell :=
      { cell with energy := cell.energy + (randf rng s.rand_calls - 0.5) * 0.05 * effect_strength }
    let cell :=
      { cell with
        phase := cell.phase + (randf rng (s.rand_calls + 1) - 0.5) * 0.05 * effect_strength }
    updateCell x y { s with grid := setCell s.grid x y cell, rand_calls := s.rand_calls + 2 }
  else
    let cell := s.grid x y
    let cell := { cell with energy := max 0 (cell.energy - 0.01) }
    updateCell x y { s with grid := setCell s.grid x y cell }

/-- The function `changeCell`. -/
noncomputable def changeCell (rng : Rng) (clickedX clickedY : ℤ) (s : State) : State :=
  (List.range GRID_SIZE).foldl
    (fun s x =>
      (List.range GRID_SIZE).foldl (fun s y => changeCellBody rng clickedX clickedY x y s) s) s

/-- The program up to a point of its event loop, as far as the grid goes:
`initializeGrid`, then one `changeCell` per click, in order. -/
noncomputable def runClicks (rng : Rng) (clicks : List (ℤ × ℤ)) : State :=
  clicks.foldl (fun s c => changeCell rng c.1 c.2 s) (initializeGrid rng startState)

/-! ## Frame renderer -/

/-- The three float accumulators `r`, `g`, `b` of a pixel. -/
structure RGB where
  r : ℝ
  g : ℝ
  b : ℝ

/-- Float division where the divisor may vanish: no value at divisor zero. -/
noncomputable def fdiv (a b : ℝ) : Option ℝ := if b = 0 then none else some (a / b)

/-- The cast `(Uint32) v` of a float. -/
noncomputable def toUint32 (v : ℝ) : ℕ := (truncf v % 2 ^ 32).toNat

/-- The two assignments to `cellValue` in `drawCanvas`, for one cell at pixel `(x, y)`. -/
noncomputable def cellValue (sin_table : ℕ → ℝ) (cell : Cell) (simulation_time : ℝ)
    (x y : ℕ) : ℝ :=
  let dx := (x : ℝ) / (WINDOW_WIDTH : ℝ) * 2 - 1
  let dy := (y : ℝ) / (WINDOW_HEIGHT : ℝ) * 2 - 1
  let cellValue :=
    cell.amplitude *
      fast_sin sin_table
        ((dx * cell.parameterX + dy * cell.parameterY) * cell.frequency + cell.phase +
          simulation_time * cell.frequency)
  (cellValue + 1) / 2

/-- The body of the two inner loops of `drawCanvas`: cell `(i, j)` added into the
accumulators of pixel `(x, y)`. -/
noncomputable def accumulateBody (sin_table : ℕ → ℝ) (colors : ℤ → ℕ) (s : State)
    (x y i j : ℕ) (acc : RGB) : RGB :=
  let cell := s.grid i j
  let cellValue := cellValue sin_table cell s.simulation_time x y
  let color := colors cell.colorIndex
  { r := acc.r + (((color >>> 16) &&& 0xFF : ℕ) : ℝ) * cellValue
    g := acc.g + (((color >>> 8) &&& 0xFF : ℕ) : ℝ) * cellValue
    b := acc.b + ((color &&& 0xFF : ℕ) : ℝ) * cellValue }

/-- The two inner loops of `drawCanvas`: the sums `r`, `g`, `b` of pixel `(x, y)`. -/
noncomputable def accumulate (sin_table : ℕ → ℝ) (colors : ℤ → ℕ) (s : State) (x y : ℕ) : RGB :=
  (List.range GRID_SIZE).foldl
    (fun acc i =>
      (List.range GRID_SIZE).foldl (fun acc j => accumulateBody sin_table colors s x y i j acc)
        acc)
    ⟨0, 0, 0⟩

/-- One channel of the step "Normalize and apply contrast" of `drawCanvas`. -/
noncomputable def contrastChannel (v : ℝ) : ℝ :=
  let contrast : ℝ := 1.5
  max 0 (min 255 ((v / ((GRID_SIZE : ℝ) * (GRID_SIZE : ℝ)) - 128) * contrast + 128))

/-- The step "Normalize and apply contrast" of `drawCanvas`. -/
noncomputable def contrastRemap (c : RGB) : RGB :=
  ⟨contrastChannel c.r, contrastChannel c.g, contrastChannel c.b⟩

/-- The step "Apply color boosting" of `drawCanvas`. Exact arithmetic; `colorBoostF32`
is the same with rounding. -/
noncomputable def colorBoost (c : RGB) : Option RGB :=
  let max_component := max c.r (max c.g c.b)
  if max_component > 0 then
    (fdiv 255.0 max_component).map fun boost_factor =>
      ⟨c.r * boost_factor, c.g * boost_factor, c.b * boost_factor⟩
  else
    some c

/-- The step "Apply a minimum brightness" of `drawCanvas`. -/
noncomputable def minBrightness (c : RGB) : RGB :=
  let min_brightness : ℝ := 0.1
  ⟨max c.r (255 * min_brightness), max c.g (255 * min_brightness),
    max c.b (255 * min_brightness)⟩

/-- The word written to `pixels`, from the three channels cast to `Uint32`. -/
def packChannels (r g b : ℕ) : ℕ :=
  ((255 <<< 24) % 2 ^ 32) ||| ((r <<< 16) % 2 ^ 32) ||| ((g <<< 8) % 2 ^ 32) ||| b

/-- The last statement of the pixel loop body of `drawCanvas`. -/
noncomputable def packPixel (c : RGB) : ℕ :=
  packChannels (toUint32 c.r) (toUint32 c.g) (toUint32 c.b)

/-- The tone-mapping chain of `drawCanvas` after the contrast step: boosting, then
the brightness floor. -/
noncomputable def boostAndFloor (c : RGB) : Option RGB :=
  (colorBoost c).map minBrightness

/-- The body of the two pixel loops of `drawCanvas`: the word for pixel `(x, y)`. -/
noncomputable def drawPixel (sin_table : ℕ → ℝ) (colors : ℤ → ℕ) (s : State) (x y : ℕ) :
    Option ℕ :=
  (boostAndFloor (contrastRemap (accumulate sin_table colors s x y))).map packPixel

/-- The pixel loops of `drawCanvas`: the buffer `pixels` after them. -/
noncomputable def drawCanvas (sin_table : ℕ → ℝ) (colors : ℤ → ℕ) (s : State)
    (pixels : ℕ → ℕ) : Option (ℕ → ℕ) :=
  (List.range WINDOW_HEIGHT).foldlM
    (fun pixels y =>
      (List.range WINDOW_WIDTH).foldlM
        (fun pixels x =>
          (drawPixel sin_table colors s x y).map fun p =>
            Function.update pixels (y * WINDOW_WIDTH + x) p)
        pixels)
    pixels

/-- One render tick of the loop of `main`: `simulation_time += 0.016f; drawCanvas();`.
The globals after the tick and the pixel buffer that `drawCanvas` fills. -/
noncomputable def renderTick (sin_table : ℕ → ℝ) (colors : ℤ → ℕ) (s : State)
    (pixels : ℕ → ℕ) : State × Option (ℕ → ℕ) :=
  let s := { s with simulation_time := s.simulation_time + 0.016 }
  (s, drawCanvas sin_table colors s pixels)

/-! ## Float arithmetic -/

/-- Round to nearest, ties to even, with `p` significant bits and no exponent limits. -/
noncomputable def roundNearestEven (p : ℕ) (v : ℝ) : ℝ :=
  if v = 0 then 0
  else
    let ulp : ℝ := (2 : ℝ) ^ (Int.log 2 |v| - ((p : ℤ) - 1))
    let q := v / ulp
    let n := ⌊q⌋
    let k : ℤ :=
      if q - (n : ℝ) < 1 / 2 then n
      else if 1 / 2 < q - (n : ℝ) then n + 1
      else if n % 2 = 0 then n else n + 1
    (k : ℝ) * ulp

/-- Conversion to `float`, IEEE binary32: 24 significant bits. -/
noncomputable def roundF32 (v : ℝ) : ℝ := roundNearestEven 24 v

/-- Rounding of a `double` operation, IEEE binary64: 53 significant bits. -/
noncomputable def roundF64 (v : ℝ) : ℝ := roundNearestEven 53 v

/-- The macro `PI` as the `double` constant the compiler reads from its literal. -/
noncomputable def PI_f64 : ℝ := roundF64 3.14159265358979323846

/-- The finite `float` values: `m * 2 ^ e` with `|m| < 2 ^ 24` and `-149 ≤ e ≤ 104`. -/
def IsFloat32 (v : ℝ) : Prop :=
  ∃ m e : ℤ, |m| < 2 ^ 24 ∧ -149 ≤ e ∧ e ≤ 104 ∧ v = (m : ℝ) * (2 : ℝ) ^ e

/-- The first two statements of `fast_sin` in float arithmetic: `fmodf` by the `float`
nearest the `double` `2 * PI` is exact; `x += 2 * PI` adds in `double` and converts the
sum to `float`. -/
noncomputable def reducedAngleF32 (x : ℝ) : ℝ :=
  let x := fmodf x (roundF32 (roundF64 (2 * PI_f64)))
  if x < 0 then roundF32 (roundF64 (x + roundF64 (2 * PI_f64))) else x

/-- The index that `fast_sin` computes from the reduced angle in float arithmetic, before
the mask: the division and the product are `double` operations. -/
noncomputable def rawIndexF32 (x : ℝ) : ℤ :=
  truncf (roundF64 (roundF64 (x / roundF64 (2 * PI_f64)) * (SIN_TABLE_SIZE : ℝ)))

/-- The function `fast_sin` in float arithmetic, reading the table `sin_table`. -/
noncomputable def fast_sin_f32 (sin_table : ℕ → ℝ) (x : ℝ) : ℝ :=
  let x := reducedAngleF32 x
  sin_table (Int.land (rawIndexF32 x) ((SIN_TABLE_SIZE : ℤ) - 1)).toNat

/-- The step "Apply color boosting" of `drawCanvas` in float arithmetic: the quotient
and the three products are each rounded to `float`. -/
noncomputable def colorBoostF32 (c : RGB) : Option RGB :=
  let max_component := max c.r (max c.g c.b)
  if max_component > 0 then
    (fdiv 255.0 max_component).map fun quotient =>
      let boost_factor := roundF32 quotient
      ⟨roundF32 (c.r * boost_factor), roundF32 (c.g * boost_factor),
        roundF32 (c.b * boost_factor)⟩
  else
    some c

/-- The step "Apply a minimum brightness" of `drawCanvas` in float arithmetic: `0.1f`
and the product `255 * min_brightness` are rounded to `float`. -/
noncomputable def minBrightnessF32 (c : RGB) : RGB :=
  let min_brightness : ℝ := roundF32 0.1
  ⟨max c.r (roundF32 (255 * min_brightness)), max c.g (roundF32 (255 * min_brightness)),
    max c.b (roundF32 (255 * min_brightness))⟩

/-- The tone-mapping chain of `drawCanvas` after the contrast step, in float arithmetic. -/
noncomputable def boostAndFloorF32 (c : RGB) : Option RGB :=
  (colorBoostF32 c).map minBrightnessF32

/-! ## Concrete inputs -/

/-- A random source whose every `rand()` returns `RAND_MAX`, so that `randf()` is `1`. -/
def maxRng : Rng := ⟨fun _ => 32767, 32767⟩

/-- A random source whose `randf()` is always `0.5`: the jitter it adds is zero. -/
def midRng : Rng := ⟨fun _ => 1, 2⟩

/-- A state whose grid has energy `1` at the centre cell `(6, 6)` and energy `0` at every
other cell, each cell with the derived fields of its energy. -/
noncomputable def spotState : State :=
  ⟨fun i j => if i = 6 ∧ j = 6 then ⟨1, 4, 0, 0, 5, 0, 1⟩ else ⟨0, 1, 0, 0, 5, 0, 0.5⟩, 0, 0⟩

/-- A cell of energy `0` with the derived fields of that energy: amplitude `0.5`. -/
noncomputable def coldCell : Cell := ⟨0, 1, 0, 0, 5, 0, 0.5⟩

/-! ## Loops -/

/-- Two nested loops are one loop over the pairs of indices, in order. -/
theorem nested_foldl_eq_product {σ : Type} (f : ℕ → ℕ → σ → σ) (xs ys : List ℕ) (s : σ) :
    xs.foldl (fun s x => ys.foldl (fun s y => f x y s) s) s =
      (xs ×ˢ ys).foldl (fun s p => f p.1 p.2 s) s := by
  induction xs generalizing s with
  | nil => simp
  | cons a xs ih =>
    simp only [List.foldl_cons, List.product_cons, List.foldl_append, List.foldl_map]
    exact ih _

/-- A loop over distinct cells whose body writes only its own cell, from that cell and
the position in the `rand()` stream alone: every visited cell ends as the body leaves
it at some position of the stream, every other cell is untouched. -/
theorem foldl_grid_local (body : ℕ × ℕ → State → State)
    (hframe : ∀ p s i j, (i, j) ≠ p → (body p s).grid i j = s.grid i j)
    (hlocal : ∀ p s s', s.grid p.1 p.2 = s'.grid p.1 p.2 → s.rand_calls = s'.rand_calls →
      (body p s).grid p.1 p.2 = (body p s').grid p.1 p.2)
    (l : List (ℕ × ℕ)) (hl : l.Nodup) (s : State) :
    (∀ p ∈ l, ∃ n, (l.foldl (fun s p => body p s) s).grid p.1 p.2 =
        (body p { s with rand_calls := n }).grid p.1 p.2) ∧
      ∀ i j, (i, j) ∉ l → (l.foldl (fun s p => body p s) s).grid i j = s.grid i j := by
  induction l generalizing s with
  | nil => simp
  | cons q l ih =>
    obtain ⟨hq, hl'⟩ := List.nodup_cons.mp hl
    obtain ⟨ih1, ih2⟩ := ih hl' (body q s)
    refine ⟨?_, ?_⟩
    · intro p hp
      rcases List.mem_cons.mp hp with rfl | hp'
      · refine ⟨s.rand_calls, ?_⟩
        simp only [List.foldl_cons]
        rw [ih2 p.1 p.2 hq]
      · obtain ⟨n, hn⟩ := ih1 p hp'
        refine ⟨n, ?_⟩
        simp only [List.foldl_cons]
        rw [hn]
        apply hlocal
        · apply hframe
          rintro rfl
          exact hq hp'
        · rfl
    · intro i j hij
      simp only [List.foldl_cons]
      rw [ih2 i j (fun h => hij (List.mem_cons_of_mem _ h))]
      exact hframe q s i j (fun h => hij (h ▸ List.mem_cons_self _ _))

/-- The pairs of indices the grid loops visit are distinct. -/
theorem grid_indices_nodup : (List.range GRID_SIZE ×ˢ List.range GRID_SIZE).Nodup :=
  List.Nodup.product (List.nodup_range _) (List.nodup_range _)

/-- The grid loops visit exactly the cells of the grid. -/
theorem mem_grid_indices (x y : ℕ) :
    (x, y) ∈ List.range GRID_SIZE ×ˢ List.range GRID_SIZE ↔ x < GRID_SIZE ∧ y < GRID_SIZE := by
  simp [List.mem_product]

/-! ## The perturbation loop body -/

theorem changeCellBody_frame (rng : Rng) (cx cy : ℤ) (x y : ℕ) (s : State) (i j : ℕ)
    (h : (i, j) ≠ (x, y)) : (changeCellBody rng cx cy x y s).grid i j = s.grid i j := by
  have h' : ¬ (i = x ∧ j = y) := fun ⟨h1, h2⟩ => h (by rw [h1, h2])
  by_cases hd : distance cx cy x y ≤ MAX_EFFECT_RADIUS <;>
    simp [changeCellBody, hd, updateCell, setCell, h']

theorem changeCellBody_local (rng : Rng) (cx cy : ℤ) (x y : ℕ) (s s' : State)
    (hg : s.grid x y = s'.grid x y) (hn : s.rand_calls = s'.rand_calls) :
    (changeCellBody rng cx cy x y s).grid x y = (changeCellBody rng cx cy x y s').grid x y := by
  by_cases hd : distance cx cy x y ≤ MAX_EFFECT_RADIUS <;>
    simp [changeCellBody, hd, updateCell, setCell, hg, hn]

/-- Every cell of the grid after `changeCell` is what the loop body makes of the cell
that was there before, at some position of the `rand()` stream. -/
theorem changeCell_cell (rng : Rng) (cx cy : ℤ) (s : State) (x y : ℕ)
    (hx : x < GRID_SIZE) (hy : y < GRID_SIZE) :
    ∃ n, (changeCell rng cx cy s).grid x y =
      (changeCellBody rng cx cy x y { s with rand_calls := n }).grid x y := by
  unfold changeCell
  rw [nested_foldl_eq_product]
  exact (foldl_grid_local (fun p s => changeCellBody rng cx cy p.1 p.2 s)
    (fun p s i j h => changeCellBody_frame rng cx cy p.1 p.2 s i j h)
    (fun p s s' hg hn => changeCellBody_local rng cx cy p.1 p.2 s s' hg hn)
    _ grid_indices_nodup s).1 (x, y) ((mem_grid_indices x y).mpr ⟨hx, hy⟩)

/-- Inside the radius: the cell the loop body of `changeCell` leaves at `(x, y)`. -/
theorem changeCellBody_inside (rng : Rng) (cx cy : ℤ) (x y : ℕ) (s : State)
    (hd : distance cx cy x y ≤ MAX_EFFECT_RADIUS) :
    (changeCellBody rng cx cy x y s).grid x y =
      { energy :=
          max 0 (min 1 ((s.grid x y).energy +
              ENERGY_INCREASE * effectStrength (distance cx cy x y))) +
            (randf rng s.rand_calls - 0.5) * 0.05 * effectStrength (distance cx cy x y)
        frequency :=
          1 + (max 0 (min 1 ((s.grid x y).energy +
              ENERGY_INCREASE * effectStrength (distance cx cy x y))) +
            (randf rng s.rand_calls - 0.5) * 0.05 * effectStrength (distance cx cy x y)) * 3
        colorIndex :=
          Int.tmod ((s.grid x y).colorIndex +
            truncf (COLOR_CHANGE_INTENSITY * effectStrength (distance cx cy x y))) NUM_COLORS
        phase :=
          (s.grid x y).phase + PHASE_CHANGE_INTENSITY * effectStrength (distance cx cy x y) +
            (randf rng (s.rand_calls + 1) - 0.5) * 0.05 * effectStrength (distance cx cy x y)
        parameterX :=
          Real.cos ((max 0 (min 1 ((s.grid x y).energy +
              ENERGY_INCREASE * effectStrength (distance cx cy x y))) +
            (randf rng s.rand_calls - 0.5) * 0.05 * effectStrength (distance cx cy x y)) *
              2 * PI) * 5
        parameterY :=
          Real.sin ((max 0 (min 1 ((s.grid x y).energy +
              ENERGY_INCREASE * effectStrength (distance cx cy x y))) +
            (randf rng s.rand_calls - 0.5) * 0.05 * effectStrength (distance cx cy x y)) *
              2 * PI) * 5
        amplitude :=
          0.5 + (max 0 (min 1 ((s.grid x y).energy +
              ENERGY_INCREASE * effectStrength (distance cx cy x y))) +
            (randf rng s.rand_calls - 0.5) * 0.05 * effectStrength (distance cx cy x y)) *
              0.5 } := by
  simp [changeCellBody, hd, updateCell, setCell]

/-- Outside the radius: the cell the loop body of `changeCell` leaves at `(x, y)`. -/
theorem changeCellBody_outside (rng : Rng) (cx cy : ℤ) (x y : ℕ) (s : State)
    (hd : MAX_EFFECT_RADIUS < distance cx cy x y) :
    (changeCellBody rng cx cy x y s).grid x y =
      { energy := max 0 ((s.grid x y).energy - 0.01)
        frequency := 1 + max 0 ((s.grid x y).energy - 0.01) * 3
        colorIndex := (s.grid x y).colorIndex
        phase := (s.grid x y).phase
        parameterX := Real.cos (max 0 ((s.grid x y).energy - 0.01) * 2 * PI) * 5
        parameterY := Real.sin (max 0 ((s.grid x y).energy - 0.01) * 2 * PI) * 5
        amplitude := 0.5 + max 0 ((s.grid x y).energy - 0.01) * 0.5 } := by
  simp [changeCellBody, not_le.mpr hd, updateCell, setCell]

/-! ## The initialisation loop body -/

theorem initializeGridBody_frame (rng : Rng) (x y : ℕ) (s : State) (i j : ℕ)
    (h : (i, j) ≠ (x, y)) : (initializeGridBody rng x y s).grid i j = s.grid i j := by
  have h' : ¬ (i = x ∧ j = y) := fun ⟨h1, h2⟩ => h (by rw [h1, h2])
  simp [initializeGridBody, updateCell, setCell, h']

/-- The cell the loop body of `initializeGrid` leaves at `(x, y)`. -/
theorem initializeGridBody_cell (rng : Rng) (x y : ℕ) (s : State) :
    (initializeGridBody rng x y s).grid x y =
      { energy := randf rng s.rand_calls
        frequency := 1 + randf rng s.rand_calls * 3
        colorIndex := Int.tmod (rng.rand (s.rand_calls + 2)) NUM_COLORS
        phase := randf rng (s.rand_calls + 3) * 2 * PI
        parameterX := Real.cos (randf rng s.rand_calls * 2 * PI) * 5
        parameterY := Real.sin (randf rng s.rand_calls * 2 * PI) * 5
        amplitude := 0.5 + randf rng s.rand_calls * 0.5 } := by
  simp [initializeGridBody, updateCell, setCell]

/-- Every cell of the grid after `initializeGrid` is what the loop body writes at some
position of the `rand()` stream. -/
theorem initializeGrid_cell (rng : Rng) (s : State) (x y : ℕ)
    (hx : x < GRID_SIZE) (hy : y < GRID_SIZE) :
    ∃ n, (initializeGrid rng s).grid x y =
      (initializeGridBody rng x y { s with rand_calls := n }).grid x y := by
  unfold initializeGrid
  rw [nested_foldl_eq_product]
  exact (foldl_grid_local (fun p s => initializeGridBody rng p.1 p.2 s)
    (fun p s i j h => initializeGridBody_frame rng p.1 p.2 s i j h)
    (fun p s s' _ hn => by
      rw [initializeGridBody_cell, initializeGridBody_cell, hn])
    _ grid_indices_nodup s).1 (x, y) ((mem_grid_indices x y).mpr ⟨hx, hy⟩)

/-! ## Distances, the radius and the falloff -/

theorem randf_mem (rng : Rng) (h : rng.WellFormed) (n : ℕ) :
    0 ≤ randf rng n ∧ randf rng n ≤ 1 := by
  obtain ⟨hpos, hr⟩ := h
  have h1 : (0 : ℝ) < (rng.RAND_MAX : ℝ) := by exact_mod_cast hpos
  have h2 : (0 : ℝ) ≤ (rng.rand n : ℝ) := by exact_mod_cast (hr n).1
  have h3 : (rng.rand n : ℝ) ≤ (rng.RAND_MAX : ℝ) := by exact_mod_cast (hr n).2
  unfold randf
  exact ⟨div_nonneg h2 h1.le, (div_le_one h1).mpr h3⟩

theorem maxRng_wellFormed : maxRng.WellFormed := by
  unfold Rng.WellFormed maxRng
  simp

theorem midRng_wellFormed : midRng.WellFormed := by
  unfold Rng.WellFormed midRng
  simp

theorem randf_maxRng (n : ℕ) : randf maxRng n = 1 := by
  simp [randf, maxRng]

theorem randf_midRng (n : ℕ) : randf midRng n = 0.5 := by
  norm_num [randf, midRng]

theorem MAX_EFFECT_RADIUS_pos : 0 < MAX_EFFECT_RADIUS := by
  unfold MAX_EFFECT_RADIUS GRID_SIZE
  positivity

theorem distance_nonneg (x1 y1 x2 y2 : ℤ) : 0 ≤ distance x1 y1 x2 y2 :=
  Real.sqrt_nonneg _

theorem distance_self (x y : ℤ) : distance x y x y = 0 := by
  simp [distance]

/-- The radius is `√18`. -/
theorem MAX_EFFECT_RADIUS_eq : MAX_EFFECT_RADIUS = Real.sqrt 18 := by
  have h : (18 : ℝ) = 2 * 3 ^ 2 := by norm_num
  rw [h, Real.sqrt_mul (by norm_num), Real.sqrt_sq (by norm_num)]
  unfold MAX_EFFECT_RADIUS GRID_SIZE
  push_cast
  ring

/-- A cell is inside the radius when its squared grid distance from the click is at
most `18`. -/
theorem distance_le_radius_iff (x1 y1 x2 y2 : ℤ) :
    distance x1 y1 x2 y2 ≤ MAX_EFFECT_RADIUS ↔
      (x2 - x1) * (x2 - x1) + (y2 - y1) * (y2 - y1) ≤ 18 := by
  rw [MAX_EFFECT_RADIUS_eq]
  unfold distance
  have h0 : (0 : ℤ) ≤ (x2 - x1) * (x2 - x1) + (y2 - y1) * (y2 - y1) :=
    add_nonneg (mul_self_nonneg _) (mul_self_nonneg _)
  have h0' : (0 : ℝ) ≤ (((x2 - x1) * (x2 - x1) + (y2 - y1) * (y2 - y1) : ℤ) : ℝ) := by
    exact_mod_cast h0
  rw [Real.sqrt_le_sqrt_iff (by norm_num)]
  constructor
  · intro h
    exact_mod_cast h
  · intro h
    exact_mod_cast h

theorem effectStrength_zero : effectStrength 0 = 1 := by
  simp [effectStrength]

theorem effectStrength_mem (d : ℝ) (h0 : 0 ≤ d) (h1 : d ≤ MAX_EFFECT_RADIUS) :
    0 ≤ effectStrength d ∧ effectStrength d ≤ 1 := by
  have hR := MAX_EFFECT_RADIUS_pos
  have hq0 : 0 ≤ d / MAX_EFFECT_RADIUS := div_nonneg h0 hR.le
  have hq1 : d / MAX_EFFECT_RADIUS ≤ 1 := (div_le_one hR).mpr h1
  unfold effectStrength
  constructor
  · exact pow_nonneg (by linarith) 3
  · exact pow_le_one₀ (by linarith) (by linarith)

/-! ## Energy range -/

/-- With `randf()` always `1`, every cell starts with energy `1`. -/
theorem initializeGrid_maxRng_energy (s : State) (x y : ℕ)
    (hx : x < GRID_SIZE) (hy : y < GRID_SIZE) :
    ((initializeGrid maxRng s).grid x y).energy = 1 := by
  obtain ⟨n, hn⟩ := initializeGrid_cell maxRng s x y hx hy
  rw [hn, initializeGridBody_cell]
  exact randf_maxRng _

/-- C1 (the code at the failing input): the random source returns `RAND_MAX` at every
call. After `initializeGrid` every cell has energy `1`, inside `[0, 1]`; after one
click at cell `(0, 0)` the energy of that cell is `1.025`: the jitter is added after
the clamp to `[0, 1]` and nothing clamps again. -/
theorem changeCell_energy_above_one :
    (∀ x y, x < GRID_SIZE → y < GRID_SIZE →
        0 ≤ ((initializeGrid maxRng startState).grid x y).energy ∧
          ((initializeGrid maxRng startState).grid x y).energy ≤ 1) ∧
      ((changeCell maxRng 0 0 (initializeGrid maxRng startState)).grid 0 0).energy = 41 / 40 ∧
      ((runClicks maxRng [(0, 0)]).grid 0 0).energy = 41 / 40 := by
  have h0 : (0 : ℕ) < GRID_SIZE := by decide
  have key : ((changeCell maxRng 0 0 (initializeGrid maxRng startState)).grid 0 0).energy
      = 41 / 40 := by
    obtain ⟨n, hn⟩ := changeCell_cell maxRng 0 0 (initializeGrid maxRng startState) 0 0 h0 h0
    have hd : distance 0 0 ((0 : ℕ) : ℤ) ((0 : ℕ) : ℤ) ≤ MAX_EFFECT_RADIUS := by
      rw [Nat.cast_zero, distance_self]
      exact MAX_EFFECT_RADIUS_pos.le
    rw [hn, changeCellBody_inside _ _ _ _ _ _ hd]
    simp only [Nat.cast_zero, distance_self, effectStrength_zero, randf_maxRng,
      initializeGrid_maxRng_energy startState 0 0 h0 h0, ENERGY_INCREASE]
    norm_num
  refine ⟨?_, key, ?_⟩
  · intro x y hx hy
    rw [initializeGrid_maxRng_energy startState x y hx hy]
    norm_num
  · simpa [runClicks] using key

/-- The loop body of `changeCell` keeps a non-negative energy non-negative. -/
theorem changeCellBody_energy_nonneg (rng : Rng) (hrng : rng.WellFormed) (cx cy : ℤ)
    (x y : ℕ) (s : State) (h : 0 ≤ (s.grid x y).energy) :
    0 ≤ ((changeCellBody rng cx cy x y s).grid x y).energy := by
  by_cases hd : distance cx cy x y ≤ MAX_EFFECT_RADIUS
  · rw [changeCellBody_inside _ _ _ _ _ _ hd]
    obtain ⟨hs0, hs1⟩ := effectStrength_mem _ (distance_nonneg _ _ _ _) hd
    obtain ⟨hj0, _⟩ := randf_mem rng hrng s.rand_calls
    simp only [ENERGY_INCREASE]
    have h1 : 0.8 * effectStrength (distance cx cy x y) ≤
        max 0 (min 1 ((s.grid x y).energy + 0.8 * effectStrength (distance cx cy x y))) := by
      apply le_max_of_le_right
      apply le_min
      · linarith
      · linarith
    have h2 : -(0.5 * effectStrength (distance cx cy x y)) ≤
        (randf rng s.rand_calls - 0.5) * effectStrength (distance cx cy x y) := by
      have := mul_le_mul_of_nonneg_right (by linarith : (-0.5 : ℝ) ≤ randf rng s.rand_calls - 0.5)
        hs0
      linarith
    nlinarith
  · rw [changeCellBody_outside _ _ _ _ _ _ (not_le.mp hd)]
    exact le_max_left _ _

/-- After `changeCell` every cell of a grid of non-negative energies has a non-negative
energy. -/
theorem changeCell_energy_nonneg (rng : Rng) (hrng : rng.WellFormed) (cx cy : ℤ) (s : State)
    (h : ∀ x y, x < GRID_SIZE → y < GRID_SIZE → 0 ≤ (s.grid x y).energy)
    (x y : ℕ) (hx : x < GRID_SIZE) (hy : y < GRID_SIZE) :
    0 ≤ ((changeCell rng cx cy s).grid x y).energy := by
  obtain ⟨n, hn⟩ := changeCell_cell rng cx cy s x y hx hy
  rw [hn]
  exact changeCellBody_energy_nonneg rng hrng cx cy x y _ (h x y hx hy)

theorem runClicks_snoc (rng : Rng) (clicks : List (ℤ × ℤ)) (c : ℤ × ℤ) :
    runClicks rng (clicks ++ [c]) = changeCell rng c.1 c.2 (runClicks rng clicks) := by
  simp [runClicks, List.foldl_append]

/-- In every state the program reaches, every cell has a non-negative energy. -/
theorem runClicks_energy_nonneg (rng : Rng) (hrng : rng.WellFormed) (clicks : List (ℤ × ℤ))
    (x y : ℕ) (hx : x < GRID_SIZE) (hy : y < GRID_SIZE) :
    0 ≤ ((runClicks rng clicks).grid x y).energy := by
  induction clicks using List.reverseRecOn generalizing x y with
  | nil =>
    obtain ⟨n, hn⟩ := initializeGrid_cell rng startState x y hx hy
    simp only [runClicks, List.foldl_nil]
    rw [hn, initializeGridBody_cell]
    exact (randf_mem rng hrng _).1
  | append_singleton l c ih =>
    rw [runClicks_snoc]
    exact changeCell_energy_nonneg rng hrng c.1 c.2 _ (fun x y hx hy => ih x y hx hy) x y hx hy

/-! ## Derived state -/

/-- C4: after `initializeGrid` and after every `changeCell` call, from every state, for
every click and every random source, each cell of the grid has
`frequency = 1 + 3 * energy`, `amplitude = 0.5 + 0.5 * energy`,
`parameterX = 5 * cos (2 * π * energy)` and `parameterY = 5 * sin (2 * π * energy)` for
the energy it stores at that point. -/
theorem derived_state_consistent (rng : Rng) (s : State) (cx cy : ℤ) (x y : ℕ)
    (hx : x < GRID_SIZE) (hy : y < GRID_SIZE) (c : Cell)
    (hc : c = (initializeGrid rng s).grid x y ∨ c = (changeCell rng cx cy s).grid x y) :
    c.frequency = 1 + 3 * c.energy ∧ c.amplitude = 0.5 + 0.5 * c.energy ∧
      c.parameterX = 5 * Real.cos (2 * Real.pi * c.energy) ∧
      c.parameterY = 5 * Real.sin (2 * Real.pi * c.energy) := by
  rcases hc with rfl | rfl
  · obtain ⟨n, hn⟩ := initializeGrid_cell rng s x y hx hy
    rw [hn, initializeGridBody_cell]
    simp only [PI]
    refine ⟨by ring, by ring, ?_, ?_⟩
    · rw [mul_comm, show randf rng n * 2 * Real.pi = 2 * Real.pi * randf rng n by ring]
    · rw [mul_comm, show randf rng n * 2 * Real.pi = 2 * Real.pi * randf rng n by ring]
  · obtain ⟨n, hn⟩ := changeCell_cell rng cx cy s x y hx hy
    rw [hn]
    by_cases hd : distance cx cy x y ≤ MAX_EFFECT_RADIUS
    · rw [changeCellBody_inside _ _ _ _ _ _ hd]
      simp only [PI]
      refine ⟨by ring, by ring, ?_, ?_⟩
      · rw [mul_comm (Real.cos _)]
        congr 2
        ring
      · rw [mul_comm (Real.sin _)]
        congr 2
        ring
    · rw [changeCellBody_outside _ _ _ _ _ _ (not_le.mp hd)]
      simp only [PI]
      refine ⟨by ring, by ring, ?_, ?_⟩
      · rw [mul_comm (Real.cos _)]
        congr 2
        ring
      · rw [mul_comm (Real.sin _)]
        congr 2
        ring

/-- C4 at a concrete input: the cell `(3, 4)` after a click at `(6, 6)` on the grid that
`initializeGrid` builds. -/
theorem derived_state_consistent_witness :
    (3 < GRID_SIZE ∧ 4 < GRID_SIZE) ∧
      ((changeCell midRng 6 6 (initializeGrid midRng startState)).grid 3 4).frequency =
        1 + 3 * ((changeCell midRng 6 6 (initializeGrid midRng startState)).grid 3 4).energy ∧
      ((changeCell midRng 6 6 (initializeGrid midRng startState)).grid 3 4).amplitude =
        0.5 + 0.5 *
          ((changeCell midRng 6 6 (initializeGrid midRng startState)).grid 3 4).energy :=
  ⟨⟨by decide, by decide⟩,
    (derived_state_consistent midRng (initializeGrid midRng startState) 6 6 3 4 (by decide)
      (by decide) _ (Or.inr rfl)).1,
    (derived_state_consistent midRng (initializeGrid midRng startState) 6 6 3 4 (by decide)
      (by decide) _ (Or.inr rfl)).2.1⟩

/-! ## One click with the jitter disabled -/

/-- Every grid cell after `changeCell`, inside the radius, for a state that is given
with its position of the `rand()` stream left open. -/
theorem changeCell_inside (rng : Rng) (cx cy : ℤ) (s : State) (x y : ℕ)
    (hx : x < GRID_SIZE) (hy : y < GRID_SIZE)
    (hd : distance cx cy x y ≤ MAX_EFFECT_RADIUS) :
    ∃ n,
      ((changeCell rng cx cy s).grid x y).energy =
          max 0 (min 1 ((s.grid x y).energy +
              ENERGY_INCREASE * effectStrength (distance cx cy x y))) +
            (randf rng n - 0.5) * 0.05 * effectStrength (distance cx cy x y) ∧
        ((changeCell rng cx cy s).grid x y).colorIndex =
          Int.tmod ((s.grid x y).colorIndex +
            truncf (COLOR_CHANGE_INTENSITY * effectStrength (distance cx cy x y))) NUM_COLORS ∧
        ((changeCell rng cx cy s).grid x y).phase =
          (s.grid x y).phase + PHASE_CHANGE_INTENSITY * effectStrength (distance cx cy x y) +
            (randf rng (n + 1) - 0.5) * 0.05 * effectStrength (distance cx cy x y) := by
  obtain ⟨n, hn⟩ := changeCell_cell rng cx cy s x y hx hy
  refine ⟨n, ?_⟩
  rw [hn, changeCellBody_inside _ _ _ _ _ _ hd]
  exact ⟨rfl, rfl, rfl⟩

/-- Every grid cell after `changeCell`, outside the radius. -/
theorem changeCell_outside (rng : Rng) (cx cy : ℤ) (s : State) (x y : ℕ)
    (hx : x < GRID_SIZE) (hy : y < GRID_SIZE)
    (hd : MAX_EFFECT_RADIUS < distance cx cy x y) :
    ((changeCell rng cx cy s).grid x y).energy = max 0 ((s.grid x y).energy - 0.01) ∧
      ((changeCell rng cx cy s).grid x y).colorIndex = (s.grid x y).colorIndex ∧
      ((changeCell rng cx cy s).grid x y).phase = (s.grid x y).phase := by
  obtain ⟨n, hn⟩ := changeCell_cell rng cx cy s x y hx hy
  rw [hn, changeCellBody_outside _ _ _ _ _ _ hd]
  exact ⟨rfl, rfl, rfl⟩

theorem effectStrength_pos (d : ℝ) (h1 : d < MAX_EFFECT_RADIUS) : 0 < effectStrength d := by
  have hR := MAX_EFFECT_RADIUS_pos
  have hq1 : d / MAX_EFFECT_RADIUS < 1 := (div_lt_one hR).mpr h1
  unfold effectStrength
  exact pow_pos (by linarith) 3

theorem effectStrength_radius : effectStrength MAX_EFFECT_RADIUS = 0 := by
  unfold effectStrength
  rw [div_self MAX_EFFECT_RADIUS_pos.ne']
  norm_num

/-- The cell `(9, 9)` is exactly on the radius of a click at `(6, 6)`. -/
theorem distance_center_9_9 : distance 6 6 9 9 = MAX_EFFECT_RADIUS := by
  rw [MAX_EFFECT_RADIUS_eq]
  unfold distance
  norm_num

/-- The cell `(0, 0)` is outside the radius of a click at `(6, 6)`. -/
theorem distance_center_0_0 : MAX_EFFECT_RADIUS < distance 6 6 0 0 := by
  rw [← not_le, distance_le_radius_iff]
  norm_num

/-- C5 as stated fails: the jitter is zero (`randf()` is `0.5`), the grid has energy `1`
at the centre and `0` elsewhere, the click is at `(6, 6)`. The centre cell, inside the
radius, keeps energy `1`; the cell `(9, 9)`, on the radius, keeps energy `0`; the cell
`(0, 0)`, outside the radius, keeps energy `0` and does not go to `-0.01`. -/
theorem end_to_end_counterexample :
    (∀ x y, 0 ≤ (spotState.grid x y).energy ∧ (spotState.grid x y).energy ≤ 1) ∧
      (∀ n, randf midRng n = 0.5) ∧
      (distance 6 6 6 6 ≤ MAX_EFFECT_RADIUS ∧
        ¬ (spotState.grid 6 6).energy < ((changeCell midRng 6 6 spotState).grid 6 6).energy) ∧
      (distance 6 6 9 9 ≤ MAX_EFFECT_RADIUS ∧
        ¬ (spotState.grid 9 9).energy < ((changeCell midRng 6 6 spotState).grid 9 9).energy) ∧
      (MAX_EFFECT_RADIUS < distance 6 6 0 0 ∧
        ((changeCell midRng 6 6 spotState).grid 0 0).energy ≠
          (spotState.grid 0 0).energy - 0.01) := by
  refine ⟨?_, randf_midRng, ⟨?_, ?_⟩, ⟨?_, ?_⟩, distance_center_0_0, ?_⟩
  · intro x y
    unfold spotState
    dsimp only
    split <;> norm_num
  · rw [distance_self]
    exact MAX_EFFECT_RADIUS_pos.le
  · have hd : distance 6 6 ((6 : ℕ) : ℤ) ((6 : ℕ) : ℤ) ≤ MAX_EFFECT_RADIUS := by
      rw [Nat.cast_ofNat, distance_self]
      exact MAX_EFFECT_RADIUS_pos.le
    obtain ⟨n, hn, -⟩ := changeCell_inside midRng 6 6 spotState 6 6 (by decide) (by decide) hd
    rw [hn]
    simp only [Nat.cast_ofNat, distance_self, effectStrength_zero, randf_midRng,
      ENERGY_INCREASE, spotState]
    norm_num
  · exact distance_center_9_9.le
  · have hd : distance 6 6 ((9 : ℕ) : ℤ) ((9 : ℕ) : ℤ) ≤ MAX_EFFECT_RADIUS := by
      rw [Nat.cast_ofNat]
      exact distance_center_9_9.le
    obtain ⟨n, hn, -⟩ := changeCell_inside midRng 6 6 spotState 9 9 (by decide) (by decide) hd
    rw [hn]
    simp only [Nat.cast_ofNat, distance_center_9_9, effectStrength_radius, randf_midRng,
      ENERGY_INCREASE, spotState]
    norm_num
  · have hd : MAX_EFFECT_RADIUS < distance 6 6 ((0 : ℕ) : ℤ) ((0 : ℕ) : ℤ) := by
      rw [Nat.cast_zero]
      exact distance_center_0_0
    rw [(changeCell_outside midRng 6 6 spotState 0 0 (by decide) (by decide) hd).1]
    simp only [spotState]
    norm_num

/-- C5, amended: grid size `12`, jitter disabled (`randf()` returns `0.5`), any grid
with energies in `[0, 1]`, click at the centre cell `(6, 6)`. A cell at distance at most
`MAX_EFFECT_RADIUS` gets the energy `min (1, energy + 0.8 * strength)`, which is never
less than before and is strictly greater when the distance is below the radius and
the energy was below `1`. A cell at greater distance gets `max (0, energy - 0.01)`,
which is exactly `0.01` less when the energy was at least `0.01`. -/
theorem end_to_end_center_click (rng : Rng) (hrng : ∀ n, randf rng n = 0.5) (s : State)
    (x y : ℕ) (hx : x < GRID_SIZE) (hy : y < GRID_SIZE)
    (he0 : 0 ≤ (s.grid x y).energy) (he1 : (s.grid x y).energy ≤ 1) :
    GRID_SIZE = 12 ∧
      (distance 6 6 x y ≤ MAX_EFFECT_RADIUS →
        ((changeCell rng 6 6 s).grid x y).energy =
            min 1 ((s.grid x y).energy + 0.8 * effectStrength (distance 6 6 x y)) ∧
          (s.grid x y).energy ≤ ((changeCell rng 6 6 s).grid x y).energy ∧
          (distance 6 6 x y < MAX_EFFECT_RADIUS → (s.grid x y).energy < 1 →
            (s.grid x y).energy < ((changeCell rng 6 6 s).grid x y).energy)) ∧
      (MAX_EFFECT_RADIUS < distance 6 6 x y →
        ((changeCell rng 6 6 s).grid x y).energy = max 0 ((s.grid x y).energy - 0.01) ∧
          (0.01 ≤ (s.grid x y).energy →
            ((changeCell rng 6 6 s).grid x y).energy = (s.grid x y).energy - 0.01)) := by
  refine ⟨rfl, ?_, ?_⟩
  · intro hd
    obtain ⟨n, hn, -⟩ := changeCell_inside rng 6 6 s x y hx hy hd
    obtain ⟨hs0, hs1⟩ := effectStrength_mem _ (distance_nonneg _ _ _ _) hd
    have hmin : (s.grid x y).energy ≤
        min 1 ((s.grid x y).energy + 0.8 * effectStrength (distance 6 6 x y)) :=
      le_min he1 (by linarith)
    have he : ((changeCell rng 6 6 s).grid x y).energy =
        min 1 ((s.grid x y).energy + 0.8 * effectStrength (distance 6 6 x y)) := by
      rw [hn, hrng, ENERGY_INCREASE, max_eq_right (le_trans he0 hmin)]
      norm_num
    refine ⟨he, he ▸ hmin, ?_⟩
    intro hlt h1
    rw [he]
    have := effectStrength_pos _ hlt
    exact lt_min h1 (by linarith)
  · intro hd
    obtain ⟨he, -⟩ := changeCell_outside rng 6 6 s x y hx hy hd
    refine ⟨he, ?_⟩
    intro h
    rw [he, max_eq_right (by linarith)]

/-- C5, amended, at a concrete input: the centre cell and the grid of `spotState`. -/
theorem end_to_end_center_click_witness :
    (∀ n, randf midRng n = 0.5) ∧
      (distance 6 6 ((6 : ℕ) : ℤ) ((6 : ℕ) : ℤ) ≤ MAX_EFFECT_RADIUS →
        ((changeCell midRng 6 6 spotState).grid 6 6).energy =
          min 1 ((spotState.grid 6 6).energy +
            0.8 * effectStrength (distance 6 6 ((6 : ℕ) : ℤ) ((6 : ℕ) : ℤ)))) :=
  ⟨randf_midRng, fun hd =>
    ((end_to_end_center_click midRng randf_midRng spotState 6 6 (by decide) (by decide)
      (by norm_num [spotState]) (by norm_num [spotState])).2.1 hd).1⟩

/-! ## Falloff and ambient decay -/

theorem effectStrength_antitone (d1 d2 : ℝ) (h12 : d1 ≤ d2) (h2 : d2 ≤ MAX_EFFECT_RADIUS) :
    effectStrength d2 ≤ effectStrength d1 := by
  have hR := MAX_EFFECT_RADIUS_pos
  have hq : d1 / MAX_EFFECT_RADIUS ≤ d2 / MAX_EFFECT_RADIUS :=
    div_le_div_of_nonneg_right h12 hR.le
  have hq1 : d2 / MAX_EFFECT_RADIUS ≤ 1 := (div_le_one hR).mpr h2
  unfold effectStrength
  exact pow_le_pow_left₀ (by linarith) (by linarith) 3

/-- C6: the strength of a click at distance `d`, `(1 - d / MAX_EFFECT_RADIUS) ^ 3` up to
the radius and none beyond it, lies in `[0, 1]` and does not increase with `d`; and a
cell beyond the radius gets no boost: `changeCell` leaves its `colorIndex` and
`phase` as they were and sets its energy to `max (0, energy - 0.01)`, which is not
above the energy before, both for a cell of non-negative energy in any state and for
every cell in every state the program reaches. -/
theorem falloff_monotone :
    (∀ d : ℝ, 0 ≤ d →
        0 ≤ (if d ≤ MAX_EFFECT_RADIUS then effectStrength d else 0) ∧
          (if d ≤ MAX_EFFECT_RADIUS then effectStrength d else 0) ≤ 1) ∧
      (∀ d1 d2 : ℝ, 0 ≤ d1 → d1 ≤ d2 →
        (if d2 ≤ MAX_EFFECT_RADIUS then effectStrength d2 else 0) ≤
          (if d1 ≤ MAX_EFFECT_RADIUS then effectStrength d1 else 0)) ∧
      (∀ (rng : Rng) (cx cy : ℤ) (s : State) (x y : ℕ), x < GRID_SIZE → y < GRID_SIZE →
        MAX_EFFECT_RADIUS < distance cx cy x y →
          ((changeCell rng cx cy s).grid x y).energy = max 0 ((s.grid x y).energy - 0.01) ∧
            ((changeCell rng cx cy s).grid x y).colorIndex = (s.grid x y).colorIndex ∧
            ((changeCell rng cx cy s).grid x y).phase = (s.grid x y).phase ∧
            (0 ≤ (s.grid x y).energy →
              ((changeCell rng cx cy s).grid x y).energy ≤ (s.grid x y).energy)) ∧
      (∀ (rng : Rng), rng.WellFormed → ∀ (clicks : List (ℤ × ℤ)) (cx cy : ℤ) (x y : ℕ),
        x < GRID_SIZE → y < GRID_SIZE → MAX_EFFECT_RADIUS < distance cx cy x y →
          ((changeCell rng cx cy (runClicks rng clicks)).grid x y).energy ≤
            ((runClicks rng clicks).grid x y).energy) := by
  have houtside : ∀ (rng : Rng) (cx cy : ℤ) (s : State) (x y : ℕ), x < GRID_SIZE →
      y < GRID_SIZE → MAX_EFFECT_RADIUS < distance cx cy x y → 0 ≤ (s.grid x y).energy →
      ((changeCell rng cx cy s).grid x y).energy ≤ (s.grid x y).energy := by
    intro rng cx cy s x y hx hy hd he
    rw [(changeCell_outside rng cx cy s x y hx hy hd).1]
    exact max_le he (by linarith)
  refine ⟨?_, ?_, ?_, ?_⟩
  · intro d h0
    split
    · next h => exact effectStrength_mem d h0 h
    · exact ⟨le_refl _, zero_le_one⟩
  · intro d1 d2 h0 h12
    by_cases h2 : d2 ≤ MAX_EFFECT_RADIUS
    · rw [if_pos h2, if_pos (le_trans h12 h2)]
      exact effectStrength_antitone d1 d2 h12 h2
    · rw [if_neg h2]
      split
      · next h => exact (effectStrength_mem d1 h0 h).1
      · exact le_refl _
  · intro rng cx cy s x y hx hy hd
    obtain ⟨h1, h2, h3⟩ := changeCell_outside rng cx cy s x y hx hy hd
    exact ⟨h1, h2, h3, houtside rng cx cy s x y hx hy hd⟩
  · intro rng hrng clicks cx cy x y hx hy hd
    exact houtside rng cx cy _ x y hx hy hd (runClicks_energy_nonneg rng hrng clicks x y hx hy)

/-- C7: in every state the program reaches (`initializeGrid`, then any clicks, with
`rand()` in `[0, RAND_MAX]`), a click leaves each cell beyond the radius with the
energy `max (0, energy - 0.01)`, which is at most the energy before and at least `0`;
and over any further clicks that all leave the cell beyond the radius its energy does
not go up and stays at least `0`. -/
theorem ambient_decay (rng : Rng) (hrng : rng.WellFormed) (clicks : List (ℤ × ℤ))
    (x y : ℕ) (hx : x < GRID_SIZE) (hy : y < GRID_SIZE) :
    (∀ cx cy : ℤ, MAX_EFFECT_RADIUS < distance cx cy x y →
        ((changeCell rng cx cy (runClicks rng clicks)).grid x y).energy =
            max 0 (((runClicks rng clicks).grid x y).energy - 0.01) ∧
          ((changeCell rng cx cy (runClicks rng clicks)).grid x y).energy ≤
            ((runClicks rng clicks).grid x y).energy ∧
          0 ≤ ((changeCell rng cx cy (runClicks rng clicks)).grid x y).energy) ∧
      (∀ further : List (ℤ × ℤ),
        (∀ c ∈ further, MAX_EFFECT_RADIUS < distance c.1 c.2 x y) →
          ((runClicks rng (clicks ++ further)).grid x y).energy ≤
              ((runClicks rng clicks).grid x y).energy ∧
            0 ≤ ((runClicks rng (clicks ++ further)).grid x y).energy) := by
  have step : ∀ (l : List (ℤ × ℤ)) (cx cy : ℤ), MAX_EFFECT_RADIUS < distance cx cy x y →
      ((changeCell rng cx cy (runClicks rng l)).grid x y).energy =
          max 0 (((runClicks rng l).grid x y).energy - 0.01) ∧
        ((changeCell rng cx cy (runClicks rng l)).grid x y).energy ≤
          ((runClicks rng l).grid x y).energy ∧
        0 ≤ ((changeCell rng cx cy (runClicks rng l)).grid x y).energy := by
    intro l cx cy hd
    have he := (changeCell_outside rng cx cy (runClicks rng l) x y hx hy hd).1
    have h0 := runClicks_energy_nonneg rng hrng l x y hx hy
    refine ⟨he, ?_, ?_⟩
    · rw [he]
      exact max_le h0 (by linarith)
    · rw [he]
      exact le_max_left _ _
  refine ⟨step clicks, ?_⟩
  intro further
  induction further using List.reverseRecOn with
  | nil =>
    intro _
    rw [List.append_nil]
    exact ⟨le_refl _, runClicks_energy_nonneg rng hrng clicks x y hx hy⟩
  | append_singleton l c ih =>
    intro hall
    have ih' := ih (fun c' hc' => hall c' (List.mem_append_left _ hc'))
    have hc := hall c (List.mem_append_right _ (List.mem_singleton_self c))
    rw [← List.append_assoc, runClicks_snoc]
    obtain ⟨-, h2, h3⟩ := step (clicks ++ l) c.1 c.2 hc
    exact ⟨le_trans h2 ih'.1, h3⟩

/-- C7 at a concrete input: the corner cell `(0, 0)` of the freshly initialised grid,
under a click at the centre `(6, 6)`. -/
theorem ambient_decay_witness :
    midRng.WellFormed ∧
      (MAX_EFFECT_RADIUS < distance 6 6 ((0 : ℕ) : ℤ) ((0 : ℕ) : ℤ) →
        ((changeCell midRng 6 6 (runClicks midRng [])).grid 0 0).energy =
            max 0 (((runClicks midRng []).grid 0 0).energy - 0.01) ∧
          ((changeCell midRng 6 6 (runClicks midRng [])).grid 0 0).energy ≤
            ((runClicks midRng []).grid 0 0).energy ∧
          0 ≤ ((changeCell midRng 6 6 (runClicks midRng [])).grid 0 0).energy) :=
  ⟨midRng_wellFormed,
    (ambient_decay midRng midRng_wellFormed [] 0 0 (by decide) (by decide)).1 6 6⟩

/-! ## The update inside the radius -/

theorem truncf_of_nonneg (v : ℝ) (h : 0 ≤ v) : truncf v = ⌊v⌋ := by
  unfold truncf
  rw [if_pos h]

/-- C8: for every state, click and cell of the grid at distance `d ≤ MAX_EFFECT_RADIUS`,
with `s = (1 - d / MAX_EFFECT_RADIUS) ^ 3` and `j1`, `j2` two consecutive `randf()` draws,
`changeCell` sets `energy' = max (0, min (1, energy + 0.8 * s)) + (j1 - 0.5) * 0.05 * s`,
`colorIndex' = (colorIndex + floor (3 * s)) % 16` (the C remainder, which is the
mathematical one for a non-negative `colorIndex`) and
`phase' = phase + (π / 2) * s + (j2 - 0.5) * 0.05 * s`. At the clicked cell itself `s = 1`:
the `colorIndex` advances by `3` modulo `16`, the phase by `π / 2` plus the jitter. -/
theorem in_radius_update (rng : Rng) (cx cy : ℤ) (s : State) (x y : ℕ)
    (hx : x < GRID_SIZE) (hy : y < GRID_SIZE)
    (hd : distance cx cy x y ≤ MAX_EFFECT_RADIUS) :
    ∃ n : ℕ,
      (((changeCell rng cx cy s).grid x y).energy =
          max 0 (min 1 ((s.grid x y).energy + 0.8 * effectStrength (distance cx cy x y))) +
            (randf rng n - 0.5) * 0.05 * effectStrength (distance cx cy x y) ∧
        ((changeCell rng cx cy s).grid x y).colorIndex =
          Int.tmod ((s.grid x y).colorIndex + ⌊3 * effectStrength (distance cx cy x y)⌋) 16 ∧
        (0 ≤ (s.grid x y).colorIndex →
          ((changeCell rng cx cy s).grid x y).colorIndex =
            ((s.grid x y).colorIndex + ⌊3 * effectStrength (distance cx cy x y)⌋) % 16) ∧
        ((changeCell rng cx cy s).grid x y).phase =
          (s.grid x y).phase + Real.pi / 2 * effectStrength (distance cx cy x y) +
            (randf rng (n + 1) - 0.5) * 0.05 * effectStrength (distance cx cy x y)) ∧
      (cx = x → cy = y →
        effectStrength (distance cx cy x y) = 1 ∧
          ((changeCell rng cx cy s).grid x y).colorIndex =
            Int.tmod ((s.grid x y).colorIndex + 3) 16 ∧
          (0 ≤ (s.grid x y).colorIndex →
            ((changeCell rng cx cy s).grid x y).colorIndex =
              ((s.grid x y).colorIndex + 3) % 16) ∧
          ((changeCell rng cx cy s).grid x y).phase =
            (s.grid x y).phase + Real.pi / 2 + (randf rng (n + 1) - 0.5) * 0.05) := by
  obtain ⟨n, he, hc, hp⟩ := changeCell_inside rng cx cy s x y hx hy hd
  obtain ⟨hs0, hs1⟩ := effectStrength_mem _ (distance_nonneg cx cy x y) hd
  have hfloor : 0 ≤ ⌊3 * effectStrength (distance cx cy x y)⌋ :=
    Int.floor_nonneg.mpr (by linarith)
  have hc' : ((changeCell rng cx cy s).grid x y).colorIndex =
      Int.tmod ((s.grid x y).colorIndex + ⌊3 * effectStrength (distance cx cy x y)⌋) 16 := by
    rw [hc, COLOR_CHANGE_INTENSITY, truncf_of_nonneg _ (by linarith)]
    norm_num [NUM_COLORS]
  have hp' : ((changeCell rng cx cy s).grid x y).phase =
      (s.grid x y).phase + Real.pi / 2 * effectStrength (distance cx cy x y) +
        (randf rng (n + 1) - 0.5) * 0.05 * effectStrength (distance cx cy x y) := by
    rw [hp, PHASE_CHANGE_INTENSITY, PI]
  refine ⟨n, ⟨?_, hc', ?_, hp'⟩, ?_⟩
  · rw [he, ENERGY_INCREASE]
  · intro hci
    rw [hc', Int.tmod_eq_emod (add_nonneg hci hfloor) (by norm_num)]
  · intro hcx hcy
    have hone : effectStrength (distance cx cy x y) = 1 := by
      rw [hcx, hcy, distance_self, effectStrength_zero]
    have hthree : ⌊3 * effectStrength (distance cx cy x y)⌋ = 3 := by
      rw [hone]
      norm_num
    refine ⟨hone, ?_, ?_, ?_⟩
    · rw [hc', hthree]
    · intro hci
      rw [hc', hthree, Int.tmod_eq_emod (by linarith) (by norm_num)]
    · rw [hp', hone]
      ring

/-- C8 at a concrete input: the clicked centre cell of `spotState`. -/
theorem in_radius_update_witness :
    distance 6 6 ((6 : ℕ) : ℤ) ((6 : ℕ) : ℤ) ≤ MAX_EFFECT_RADIUS ∧
      ∃ n : ℕ,
        ((changeCell midRng 6 6 spotState).grid 6 6).energy =
          max 0 (min 1 ((spotState.grid 6 6).energy +
              0.8 * effectStrength (distance 6 6 ((6 : ℕ) : ℤ) ((6 : ℕ) : ℤ)))) +
            (randf midRng n - 0.5) * 0.05 *
              effectStrength (distance 6 6 ((6 : ℕ) : ℤ) ((6 : ℕ) : ℤ)) :=
  have hd : distance 6 6 ((6 : ℕ) : ℤ) ((6 : ℕ) : ℤ) ≤ MAX_EFFECT_RADIUS := by
    rw [Nat.cast_ofNat, distance_self]
    exact MAX_EFFECT_RADIUS_pos.le
  ⟨hd, (in_radius_update midRng 6 6 spotState 6 6 (by decide) (by decide) hd).imp
    fun _ h => h.1.1⟩

/-! ## Oscillator table -/

/-- A loop that writes `v i` at index `key i` for each `i` of a list, with distinct
indices: afterwards every written index holds its value. -/
theorem foldl_update_mem {ι α : Type} (key : ι → ℕ) (v : ι → α) (l : List ι)
    (hinj : ∀ a ∈ l, ∀ b ∈ l, key a = key b → a = b) (t : ℕ → α) (i : ι) (hi : i ∈ l) :
    (l.foldl (fun t a => Function.update t (key a) (v a)) t) (key i) = v i := by
  induction l using List.reverseRecOn with
  | nil => simp at hi
  | append_singleton l a ih =>
    rw [List.foldl_append, List.foldl_cons, List.foldl_nil]
    by_cases hk : key i = key a
    · have : i = a := hinj i hi a (by simp) hk
      rw [this, Function.update_same]
    · rw [Function.update_noteq hk]
      have hi' : i ∈ l := by
        rcases List.mem_append.mp hi with h | h
        · exact h
        · rw [List.mem_singleton] at h
          exact absurd (by rw [h]) hk
      exact ih (fun a ha b hb => hinj a (List.mem_append_left _ ha) b (List.mem_append_left _ hb))
        hi'

/-- The mask `& (SIN_TABLE_SIZE - 1)` leaves an index in `[0, 1024)` as it is. -/
theorem land_mask_of_lt (i : ℤ) (h0 : 0 ≤ i) (h1 : i < SIN_TABLE_SIZE) :
    Int.land i ((SIN_TABLE_SIZE : ℤ) - 1) = i := by
  obtain ⟨m, rfl⟩ := Int.eq_ofNat_of_zero_le h0
  have hm : m < 1024 := by
    have : (m : ℤ) < 1024 := by simpa [SIN_TABLE_SIZE] using h1
    exact_mod_cast this
  have hmask : (SIN_TABLE_SIZE : ℤ) - 1 = ((1023 : ℕ) : ℤ) := by norm_num [SIN_TABLE_SIZE]
  rw [hmask]
  show ((m &&& 1023 : ℕ) : ℤ) = (m : ℤ)
  have h := Nat.and_pow_two_sub_one_eq_mod m 10
  norm_num at h
  rw [h, Nat.mod_eq_of_lt hm]

theorem contrastChannel_mem (v : ℝ) : 0 ≤ contrastChannel v ∧ contrastChannel v ≤ 255 := by
  unfold contrastChannel
  exact ⟨le_max_left _ _, max_le (by norm_num) (min_le_left _ _)⟩

theorem fdiv_of_ne_zero (a b : ℝ) (h : b ≠ 0) : fdiv a b = some (a / b) := by
  unfold fdiv
  rw [if_neg h]

/-- The boosting step, when some channel is positive: every channel is scaled by
`255 / max_component`, a division by a non-zero number. -/
theorem colorBoost_of_pos (c : RGB) (h : 0 < max c.r (max c.g c.b)) :
    colorBoost c = some
      ⟨c.r * (255 / max c.r (max c.g c.b)), c.g * (255 / max c.r (max c.g c.b)),
        c.b * (255 / max c.r (max c.g c.b))⟩ := by
  unfold colorBoost
  simp only [gt_iff_lt, if_pos h, fdiv_of_ne_zero _ _ h.ne', Option.map_some']
  norm_num

/-- The boosting step, when no channel is positive: skipped. -/
theorem colorBoost_of_not_pos (c : RGB) (h : ¬ 0 < max c.r (max c.g c.b)) :
    colorBoost c = some c := by
  unfold colorBoost
  simp only [gt_iff_lt, if_neg h]

/-- The boosting step keeps channels of `[0, 255]` in `[0, 255]`, and never divides by
zero. -/
theorem colorBoost_mem (c : RGB) (hr : 0 ≤ c.r) (hg : 0 ≤ c.g) (hb : 0 ≤ c.b)
    (hr' : c.r ≤ 255) (hg' : c.g ≤ 255) (hb' : c.b ≤ 255) :
    ∃ c' : RGB, colorBoost c = some c' ∧ (0 ≤ c'.r ∧ c'.r ≤ 255) ∧ (0 ≤ c'.g ∧ c'.g ≤ 255) ∧
      (0 ≤ c'.b ∧ c'.b ≤ 255) := by
  by_cases h : 0 < max c.r (max c.g c.b)
  · have hscale : ∀ v : ℝ, 0 ≤ v → v ≤ max c.r (max c.g c.b) →
        0 ≤ v * (255 / max c.r (max c.g c.b)) ∧ v * (255 / max c.r (max c.g c.b)) ≤ 255 := by
      intro v h0 hv
      refine ⟨by positivity, ?_⟩
      rw [← mul_div_assoc, div_le_iff₀ h]
      linarith
    exact ⟨_, colorBoost_of_pos c h, hscale c.r hr (le_max_left _ _),
      hscale c.g hg (le_trans (le_max_left _ _) (le_max_right _ _)),
      hscale c.b hb (le_trans (le_max_right _ _) (le_max_right _ _))⟩
  · exact ⟨c, colorBoost_of_not_pos c h, ⟨hr, hr'⟩, ⟨hg, hg'⟩, ⟨hb, hb'⟩⟩

/-- One channel after the brightness floor, cast to `Uint32`: a number in `[25, 255]`. -/
theorem toUint32_floor_mem (v : ℝ) (h1 : v ≤ 255) :
    25 ≤ toUint32 (max v (255 * 0.1)) ∧ toUint32 (max v (255 * 0.1)) ≤ 255 := by
  have hlo : (25 : ℝ) ≤ max v (255 * 0.1) := le_trans (by norm_num) (le_max_right _ _)
  have hhi : max v (255 * 0.1) ≤ 255 := max_le h1 (by norm_num)
  have h25 : (25 : ℤ) ≤ ⌊max v (255 * 0.1)⌋ := Int.le_floor.mpr (by exact_mod_cast hlo)
  have h255 : ⌊max v (255 * 0.1)⌋ ≤ (255 : ℤ) := by
    have : ⌊max v (255 * 0.1)⌋ ≤ ⌊(255 : ℝ)⌋ := Int.floor_mono hhi
    simpa using this
  unfold toUint32
  rw [truncf_of_nonneg _ (by linarith)]
  omega

/-- The tone-mapping chain after the contrast step, on channels of `[0, 255]`: it has a
value, and each channel of the value, cast to `Uint32`, is in `[25, 255]`. -/
theorem boostAndFloor_mem (c : RGB) (hr : 0 ≤ c.r) (hg : 0 ≤ c.g) (hb : 0 ≤ c.b)
    (hr' : c.r ≤ 255) (hg' : c.g ≤ 255) (hb' : c.b ≤ 255) :
    ∃ c' : RGB, boostAndFloor c = some c' ∧
      (25 ≤ toUint32 c'.r ∧ toUint32 c'.r ≤ 255) ∧
      (25 ≤ toUint32 c'.g ∧ toUint32 c'.g ≤ 255) ∧
      (25 ≤ toUint32 c'.b ∧ toUint32 c'.b ≤ 255) := by
  obtain ⟨c', hc', h1, h2, h3⟩ := colorBoost_mem c hr hg hb hr' hg' hb'
  refine ⟨minBrightness c', ?_, ?_, ?_, ?_⟩
  · unfold boostAndFloor
    rw [hc', Option.map_some']
  · exact toUint32_floor_mem c'.r h1.2
  · exact toUint32_floor_mem c'.g h2.2
  · exact toUint32_floor_mem c'.b h3.2

/-- Every pixel has a value: the word packed from three channels in `[25, 255]`. -/
theorem drawPixel_spec (sin_table : ℕ → ℝ) (colors : ℤ → ℕ) (s : State) (x y : ℕ) :
    ∃ c : RGB, boostAndFloor (contrastRemap (accumulate sin_table colors s x y)) = some c ∧
      drawPixel sin_table colors s x y = some (packPixel c) ∧
      (25 ≤ toUint32 c.r ∧ toUint32 c.r ≤ 255) ∧
      (25 ≤ toUint32 c.g ∧ toUint32 c.g ≤ 255) ∧
      (25 ≤ toUint32 c.b ∧ toUint32 c.b ≤ 255) := by
  obtain ⟨c, hc, h⟩ := boostAndFloor_mem (contrastRemap (accumulate sin_table colors s x y))
    (contrastChannel_mem _).1 (contrastChannel_mem _).1 (contrastChannel_mem _).1
    (contrastChannel_mem _).2 (contrastChannel_mem _).2 (contrastChannel_mem _).2
  refine ⟨c, hc, ?_, h⟩
  unfold drawPixel
  rw [hc, Option.map_some']

/-! ## The pixel loops -/

/-- A loop whose body always has a value has the value of the loop over the values. -/
theorem foldlM_eq_some_foldl {ι σ : Type} (g : σ → ι → Option σ) (h : σ → ι → σ)
    (l : List ι) (hg : ∀ t, ∀ i ∈ l, g t i = some (h t i)) (t : σ) :
    l.foldlM g t = some (l.foldl h t) := by
  induction l generalizing t with
  | nil => rfl
  | cons a l ih =>
    rw [List.foldlM_cons, hg t a (List.mem_cons_self _ _), List.foldl_cons]
    exact ih (fun t i hi => hg t i (List.mem_cons_of_mem _ hi)) (h t a)

/-- The pixel loops of `drawCanvas` finish, and leave at `pixels[y * WINDOW_WIDTH + x]`
the word of pixel `(x, y)`. -/
theorem drawCanvas_spec (sin_table : ℕ → ℝ) (colors : ℤ → ℕ) (s : State) (pixels : ℕ → ℕ) :
    ∃ buf : ℕ → ℕ, drawCanvas sin_table colors s pixels = some buf ∧
      ∀ x y, x < WINDOW_WIDTH → y < WINDOW_HEIGHT →
        drawPixel sin_table colors s x y = some (buf (y * WINDOW_WIDTH + x)) := by
  have hpix : ∀ x y, drawPixel sin_table colors s x y =
      some ((drawPixel sin_table colors s x y).getD 0) := by
    intro x y
    obtain ⟨c, -, hc, -⟩ := drawPixel_spec sin_table colors s x y
    rw [hc]
    rfl
  refine ⟨(List.range WINDOW_HEIGHT).foldl
      (fun pixels y => (List.range WINDOW_WIDTH).foldl
        (fun pixels x => Function.update pixels (y * WINDOW_WIDTH + x)
          ((drawPixel sin_table colors s x y).getD 0)) pixels) pixels, ?_, ?_⟩
  · unfold drawCanvas
    apply foldlM_eq_some_foldl
    intro t y _
    apply foldlM_eq_some_foldl
    intro t x _
    rw [hpix x y]
    rfl
  · intro x y hx hy
    rw [@nested_foldl_eq_product (ℕ → ℕ)
      (fun (y x : ℕ) (pixels : ℕ → ℕ) => Function.update pixels (y * WINDOW_WIDTH + x)
        ((drawPixel sin_table colors s x y).getD 0))]
    rw [foldl_update_mem (fun p : ℕ × ℕ => p.1 * WINDOW_WIDTH + p.2)
      (fun p : ℕ × ℕ => (drawPixel sin_table colors s p.2 p.1).getD 0) _ _ pixels (y, x)
      (by simp [List.mem_product, hx, hy])]
    · exact hpix x y
    · rintro ⟨a1, a2⟩ ha ⟨b1, b2⟩ hb hab
      simp only [List.mem_product, List.mem_range] at ha hb
      simp only [WINDOW_WIDTH, WINDOW_HEIGHT] at ha hb hab
      have h1 : a1 = b1 := by omega
      have h2 : a2 = b2 := by omega
      rw [h1, h2]

/-- C2: for every state of the grid, every palette and every `simulation_time`, the
pixel loops of `drawCanvas` finish, and for every pixel `(x, y)` with `x < 600` and
`y < 600` the word they leave in `pixels` is packed from three channels (the tone-mapped
`r`, `g`, `b` after contrast, boosting and the 10% floor, cast to `Uint32`) that each
lie in `[25, 255]`. -/
theorem pixel_bounds (sin_table : ℕ → ℝ) (colors : ℤ → ℕ) (s : State) (pixels : ℕ → ℕ) :
    ∃ buf : ℕ → ℕ, drawCanvas sin_table colors s pixels = some buf ∧
      ∀ x y, x < WINDOW_WIDTH → y < WINDOW_HEIGHT →
        ∃ c : RGB,
          boostAndFloor (contrastRemap (accumulate sin_table colors s x y)) = some c ∧
            buf (y * WINDOW_WIDTH + x) =
              packChannels (toUint32 c.r) (toUint32 c.g) (toUint32 c.b) ∧
            (25 ≤ toUint32 c.r ∧ toUint32 c.r ≤ 255) ∧
            (25 ≤ toUint32 c.g ∧ toUint32 c.g ≤ 255) ∧
            (25 ≤ toUint32 c.b ∧ toUint32 c.b ≤ 255) := by
  obtain ⟨buf, hbuf, hpix⟩ := drawCanvas_spec sin_table colors s pixels
  refine ⟨buf, hbuf, ?_⟩
  intro x y hx hy
  obtain ⟨c, hc, hdraw, hbounds⟩ := drawPixel_spec sin_table colors s x y
  refine ⟨c, hc, ?_, hbounds⟩
  have := hpix x y hx hy
  rw [hdraw] at this
  exact (Option.some.inj this).symm

/-- C10: for contrast-remapped channels in `[0, 255]`, the tone-mapping chain always has
a value, so its one division with a variable divisor never divides by zero; when
`max_component > 0` the division `255 / max_component` has a value and scales the three
channels; when `max_component = 0` the boosting step leaves the channels as they are
and all three output channels are the floor `255 * 0.1`, cast to `25`. -/
theorem boost_guard (c : RGB) (hr : 0 ≤ c.r ∧ c.r ≤ 255) (hg : 0 ≤ c.g ∧ c.g ≤ 255)
    (hb : 0 ≤ c.b ∧ c.b ≤ 255) :
    (∃ c' : RGB, boostAndFloor c = some c') ∧
      (0 < max c.r (max c.g c.b) →
        fdiv 255.0 (max c.r (max c.g c.b)) = some (255 / max c.r (max c.g c.b)) ∧
          colorBoost c = some
            ⟨c.r * (255 / max c.r (max c.g c.b)), c.g * (255 / max c.r (max c.g c.b)),
              c.b * (255 / max c.r (max c.g c.b))⟩) ∧
      (max c.r (max c.g c.b) = 0 →
        fdiv 255.0 (max c.r (max c.g c.b)) = none ∧ colorBoost c = some c ∧
          boostAndFloor c = some ⟨255 * 0.1, 255 * 0.1, 255 * 0.1⟩ ∧
          toUint32 (255 * 0.1) = 25) := by
  refine ⟨?_, ?_, ?_⟩
  · obtain ⟨c', hc', -⟩ := boostAndFloor_mem c hr.1 hg.1 hb.1 hr.2 hg.2 hb.2
    exact ⟨c', hc'⟩
  · intro h
    refine ⟨?_, colorBoost_of_pos c h⟩
    rw [fdiv_of_ne_zero _ _ h.ne']
    norm_num
  · intro h
    have hboost : colorBoost c = some c := colorBoost_of_not_pos c (by rw [h]; exact lt_irrefl 0)
    have h1 : c.r ≤ 0 := h ▸ le_max_left c.r (max c.g c.b)
    have h2 : c.g ≤ 0 := h ▸ le_trans (le_max_left c.g c.b) (le_max_right c.r _)
    have h3 : c.b ≤ 0 := h ▸ le_trans (le_max_right c.g c.b) (le_max_right c.r _)
    have e1 : c.r = 0 := le_antisymm h1 hr.1
    have e2 : c.g = 0 := le_antisymm h2 hg.1
    have e3 : c.b = 0 := le_antisymm h3 hb.1
    refine ⟨?_, hboost, ?_, ?_⟩
    · unfold fdiv
      rw [if_pos h]
    · unfold boostAndFloor
      rw [hboost, Option.map_some']
      unfold minBrightness
      simp only [e1, e2, e3]
      norm_num
    · unfold toUint32
      rw [truncf_of_nonneg _ (by norm_num)]
      have : ⌊(255 : ℝ) * 0.1⌋ = 25 := by
        rw [Int.floor_eq_iff]
        norm_num
      rw [this]
      rfl

/-- C10 at a concrete input: all three channels zero. -/
theorem boost_guard_witness :
    ((0 : ℝ) ≤ 0 ∧ (0 : ℝ) ≤ 255) ∧
      boostAndFloor ⟨0, 0, 0⟩ = some ⟨255 * 0.1, 255 * 0.1, 255 * 0.1⟩ :=
  ⟨⟨le_refl 0, by norm_num⟩,
    ((boost_guard ⟨0, 0, 0⟩ ⟨le_refl 0, by norm_num⟩ ⟨le_refl 0, by norm_num⟩
      ⟨le_refl 0, by norm_num⟩).2.2 (by norm_num)).2.2.1⟩

/-! ## The render contribution of a cell -/

/-- C9 as stated fails: for a cell of amplitude `0.5`, at pixel `(0, 0)` and time `0`, the
scalar that weights the palette colour is not `amplitude * (S + 1) / 2`, whatever the
table value `S` is. -/
theorem cell_contribution_counterexample :
    cellValue initializeSinTable coldCell 0 0 0 ≠
      coldCell.amplitude *
        (fast_sin initializeSinTable
          (((((0 : ℕ) : ℝ) / (WINDOW_WIDTH : ℝ) * 2 - 1) * coldCell.parameterX +
              (((0 : ℕ) : ℝ) / (WINDOW_HEIGHT : ℝ) * 2 - 1) * coldCell.parameterY) *
                coldCell.frequency + coldCell.phase + 0 * coldCell.frequency) + 1) / 2 := by
  unfold cellValue
  simp only [coldCell]
  intro h
  norm_num at h
  linarith

/-- The inner loop of the accumulation, as a sum. -/
theorem accumulate_inner (sin_table : ℕ → ℝ) (colors : ℤ → ℕ) (s : State) (x y i n : ℕ)
    (acc : RGB) :
    (List.range n).foldl (fun acc j => accumulateBody sin_table colors s x y i j acc) acc =
      ⟨acc.r + ∑ j in Finset.range n,
          (((colors (s.grid i j).colorIndex >>> 16) &&& 0xFF : ℕ) : ℝ) *
            cellValue sin_table (s.grid i j) s.simulation_time x y,
        acc.g + ∑ j in Finset.range n,
          (((colors (s.grid i j).colorIndex >>> 8) &&& 0xFF : ℕ) : ℝ) *
            cellValue sin_table (s.grid i j) s.simulation_time x y,
        acc.b + ∑ j in Finset.range n,
          ((colors (s.grid i j).colorIndex &&& 0xFF : ℕ) : ℝ) *
            cellValue sin_table (s.grid i j) s.simulation_time x y⟩ := by
  induction n with
  | zero => simp
  | succ n ih =>
    rw [List.range_succ, List.foldl_append, ih]
    simp only [List.foldl_cons, List.foldl_nil, accumulateBody, Finset.sum_range_succ, add_assoc]

/-- The outer loop of the accumulation, as a sum. -/
theorem accumulate_outer (sin_table : ℕ → ℝ) (colors : ℤ → ℕ) (s : State) (x y m n : ℕ)
    (acc : RGB) :
    (List.range m).foldl
        (fun acc i =>
          (List.range n).foldl (fun acc j => accumulateBody sin_table colors s x y i j acc) acc)
        acc =
      ⟨acc.r + ∑ i in Finset.range m, ∑ j in Finset.range n,
          (((colors (s.grid i j).colorIndex >>> 16) &&& 0xFF : ℕ) : ℝ) *
            cellValue sin_table (s.grid i j) s.simulation_time x y,
        acc.g + ∑ i in Finset.range m, ∑ j in Finset.range n,
          (((colors (s.grid i j).colorIndex >>> 8) &&& 0xFF : ℕ) : ℝ) *
            cellValue sin_table (s.grid i j) s.simulation_time x y,
        acc.b + ∑ i in Finset.range m, ∑ j in Finset.range n,
          ((colors (s.grid i j).colorIndex &&& 0xFF : ℕ) : ℝ) *
            cellValue sin_table (s.grid i j) s.simulation_time x y⟩ := by
  induction m with
  | zero => simp
  | succ m ih =>
    rw [List.range_succ, List.foldl_append, ih]
    simp only [List.foldl_cons, List.foldl_nil, accumulate_inner, Finset.sum_range_succ,
      add_assoc]

/-- C9, amended: for every pixel and every cell, the scalar by which `drawCanvas`
weights the palette colour of the cell is `(amplitude * S + 1) / 2`, where `S` is the
table sine of `(dx * parameterX + dy * parameterY) * frequency + phase +
simulation_time * frequency`: the sine is first multiplied by the amplitude and the
product is then rescaled by `(v + 1) / 2`. The sums `r`, `g`, `b` of the pixel are the
sums over the `12 * 12 = 144` cells of the palette channel times this scalar. -/
theorem cell_contribution (sin_table : ℕ → ℝ) (colors : ℤ → ℕ) (s : State) (x y : ℕ) :
    (∀ cell : Cell,
        cellValue sin_table cell s.simulation_time x y =
          (cell.amplitude *
            fast_sin sin_table
              ((((x : ℝ) / 600 * 2 - 1) * cell.parameterX +
                  ((y : ℝ) / 600 * 2 - 1) * cell.parameterY) * cell.frequency + cell.phase +
                s.simulation_time * cell.frequency) + 1) / 2) ∧
      (accumulate sin_table colors s x y).r =
        ∑ i in Finset.range 12, ∑ j in Finset.range 12,
          (((colors (s.grid i j).colorIndex >>> 16) &&& 0xFF : ℕ) : ℝ) *
            cellValue sin_table (s.grid i j) s.simulation_time x y ∧
      (accumulate sin_table colors s x y).g =
        ∑ i in Finset.range 12, ∑ j in Finset.range 12,
          (((colors (s.grid i j).colorIndex >>> 8) &&& 0xFF : ℕ) : ℝ) *
            cellValue sin_table (s.grid i j) s.simulation_time x y ∧
      (accumulate sin_table colors s x y).b =
        ∑ i in Finset.range 12, ∑ j in Finset.range 12,
          ((colors (s.grid i j).colorIndex &&& 0xFF : ℕ) : ℝ) *
            cellValue sin_table (s.grid i j) s.simulation_time x y := by
  refine ⟨?_, ?_, ?_, ?_⟩
  · intro cell
    unfold cellValue
    norm_num [WINDOW_WIDTH, WINDOW_HEIGHT]
  · unfold accumulate
    rw [accumulate_outer]
    simp [GRID_SIZE]
  · unfold accumulate
    rw [accumulate_outer]
    simp [GRID_SIZE]
  · unfold accumulate
    rw [accumulate_outer]
    simp [GRID_SIZE]

/-! ## The table lookup -/

/-- The sums of a pixel depend on the grid only through the palette index and the
render contribution of each of the `12 * 12` cells. -/
theorem accumulate_congr (sin_table : ℕ → ℝ) (colors : ℤ → ℕ) (s s' : State) (x y : ℕ)
    (h : ∀ i j, i < GRID_SIZE → j < GRID_SIZE →
      (s'.grid i j).colorIndex = (s.grid i j).colorIndex ∧
        cellValue sin_table (s'.grid i j) s'.simulation_time x y =
          cellValue sin_table (s.grid i j) s.simulation_time x y) :
    accumulate sin_table colors s' x y = accumulate sin_table colors s x y := by
  unfold accumulate
  rw [accumulate_outer, accumulate_outer]
  have hsum : ∀ f : ℕ → ℕ,
      (∑ i in Finset.range GRID_SIZE, ∑ j in Finset.range GRID_SIZE,
        ((f (colors (s'.grid i j).colorIndex) : ℕ) : ℝ) *
          cellValue sin_table (s'.grid i j) s'.simulation_time x y) =
      ∑ i in Finset.range GRID_SIZE, ∑ j in Finset.range GRID_SIZE,
        ((f (colors (s.grid i j).colorIndex) : ℕ) : ℝ) *
          cellValue sin_table (s.grid i j) s.simulation_time x y := by
    intro f
    apply Finset.sum_congr rfl
    intro i hi
    apply Finset.sum_congr rfl
    intro j hj
    obtain ⟨h1, h2⟩ := h i j (Finset.mem_range.mp hi) (Finset.mem_range.mp hj)
    rw [h1, h2]
  rw [hsum (fun c => (c >>> 16) &&& 0xFF), hsum (fun c => (c >>> 8) &&& 0xFF),
    hsum (fun c => c &&& 0xFF)]

/-- Two states with the same sums at a pixel give the same pixel. -/
theorem drawPixel_congr (sin_table : ℕ → ℝ) (colors : ℤ → ℕ) (s s' : State) (x y : ℕ)
    (h : accumulate sin_table colors s' x y = accumulate sin_table colors s x y) :
    drawPixel sin_table colors s' x y = drawPixel sin_table colors s x y := by
  unfold drawPixel
  rw [h]

/-- C16: for every state and every `(x, y)`, `updateCell (x, y)` leaves the `energy`,
`colorIndex` and `phase` of that cell, every other cell, `simulation_time` and the
position of the `rand()` stream unchanged; the `parameterX`, `parameterY`, `frequency`
and `amplitude` it writes are functions of the energy of the cell alone (two cells of
equal energy, in any two states, get equal derived fields); and applying it twice is
applying it once. -/
theorem updateCell_pure (s : State) (x y : ℕ) :
    (((updateCell x y s).grid x y).energy = (s.grid x y).energy ∧
        ((updateCell x y s).grid x y).colorIndex = (s.grid x y).colorIndex ∧
        ((updateCell x y s).grid x y).phase = (s.grid x y).phase) ∧
      (∀ i j, ¬ (i = x ∧ j = y) → (updateCell x y s).grid i j = s.grid i j) ∧
      ((updateCell x y s).simulation_time = s.simulation_time ∧
        (updateCell x y s).rand_calls = s.rand_calls) ∧
      (((updateCell x y s).grid x y).parameterX =
          Real.cos ((s.grid x y).energy * 2 * Real.pi) * 5 ∧
        ((updateCell x y s).grid x y).parameterY =
          Real.sin ((s.grid x y).energy * 2 * Real.pi) * 5 ∧
        ((updateCell x y s).grid x y).frequency = 1 + (s.grid x y).energy * 3 ∧
        ((updateCell x y s).grid x y).amplitude = 0.5 + (s.grid x y).energy * 0.5) ∧
      (∀ (s2 : State) (x2 y2 : ℕ), (s2.grid x2 y2).energy = (s.grid x y).energy →
        ((updateCell x2 y2 s2).grid x2 y2).parameterX =
            ((updateCell x y s).grid x y).parameterX ∧
          ((updateCell x2 y2 s2).grid x2 y2).parameterY =
            ((updateCell x y s).grid x y).parameterY ∧
          ((updateCell x2 y2 s2).grid x2 y2).frequency =
            ((updateCell x y s).grid x y).frequency ∧
          ((updateCell x2 y2 s2).grid x2 y2).amplitude =
            ((updateCell x y s).grid x y).amplitude) ∧
      updateCell x y (updateCell x y s) = updateCell x y s := by
  refine ⟨?_, ?_, ⟨rfl, rfl⟩, ?_, ?_, ?_⟩
  · simp [updateCell, setCell]
  · intro i j hij
    simp [updateCell, setCell, hij]
  · simp [updateCell, setCell, PI]
  · intro s2 x2 y2 he
    simp [updateCell, setCell, he]
  · have hgrid : (updateCell x y (updateCell x y s)).grid = (updateCell x y s).grid := by
      funext i j
      by_cases hij : i = x ∧ j = y
      · obtain ⟨rfl, rfl⟩ := hij
        simp [updateCell, setCell]
      · simp [updateCell, setCell, hij]
    have hs : ∀ a b : State, a.grid = b.grid → a.simulation_time = b.simulation_time →
        a.rand_calls = b.rand_calls → a = b := by
      intro a b h1 h2 h3
      cases a
      cases b
      simp only [State.mk.injEq]
      exact ⟨h1, h2, h3⟩
    exact hs _ _ hgrid rfl rfl

/-! ## Palette index -/

theorem tmod_palette_mem (a : ℤ) (h : 0 ≤ a) :
    0 ≤ Int.tmod a NUM_COLORS ∧ Int.tmod a NUM_COLORS < NUM_COLORS := by
  have h16 : ((NUM_COLORS : ℕ) : ℤ) = 16 := by norm_num [NUM_COLORS]
  rw [h16, Int.tmod_eq_emod h (by norm_num)]
  omega

/-- The loop body of `changeCell` keeps a palette index of `[0, 16)` in `[0, 16)`. -/
theorem changeCellBody_colorIndex_mem (rng : Rng) (cx cy : ℤ) (x y : ℕ) (s : State)
    (h : 0 ≤ (s.grid x y).colorIndex ∧ (s.grid x y).colorIndex < NUM_COLORS) :
    0 ≤ ((changeCellBody rng cx cy x y s).grid x y).colorIndex ∧
      ((changeCellBody rng cx cy x y s).grid x y).colorIndex < NUM_COLORS := by
  by_cases hd : distance cx cy x y ≤ MAX_EFFECT_RADIUS
  · rw [changeCellBody_inside _ _ _ _ _ _ hd]
    obtain ⟨hs0, -⟩ := effectStrength_mem _ (distance_nonneg cx cy x y) hd
    have h3 : 0 ≤ COLOR_CHANGE_INTENSITY * effectStrength (distance cx cy x y) := by
      unfold COLOR_CHANGE_INTENSITY
      positivity
    have hc : 0 ≤ truncf (COLOR_CHANGE_INTENSITY * effectStrength (distance cx cy x y)) := by
      rw [truncf_of_nonneg _ h3]
      exact Int.floor_nonneg.mpr h3
    exact tmod_palette_mem _ (add_nonneg h.1 hc)
  · rw [changeCellBody_outside _ _ _ _ _ _ (not_le.mp hd)]
    exact h

/-- After `initializeGrid` every palette index is in `[0, 16)`. -/
theorem initializeGrid_colorIndex_mem (rng : Rng) (hrng : rng.WellFormed) (s : State)
    (x y : ℕ) (hx : x < GRID_SIZE) (hy : y < GRID_SIZE) :
    0 ≤ ((initializeGrid rng s).grid x y).colorIndex ∧
      ((initializeGrid rng s).grid x y).colorIndex < NUM_COLORS := by
  obtain ⟨n, hn⟩ := initializeGrid_cell rng s x y hx hy
  rw [hn, initializeGridBody_cell]
  exact tmod_palette_mem _ (hrng.2 _).1

/-- After `changeCell` on a grid of palette indices in `[0, 16)` every palette index is
in `[0, 16)`. -/
theorem changeCell_colorIndex_mem (rng : Rng) (cx cy : ℤ) (s : State)
    (h : ∀ x y, x < GRID_SIZE → y < GRID_SIZE →
      0 ≤ (s.grid x y).colorIndex ∧ (s.grid x y).colorIndex < NUM_COLORS)
    (x y : ℕ) (hx : x < GRID_SIZE) (hy : y < GRID_SIZE) :
    0 ≤ ((changeCell rng cx cy s).grid x y).colorIndex ∧
      ((changeCell rng cx cy s).grid x y).colorIndex < NUM_COLORS := by
  obtain ⟨n, hn⟩ := changeCell_cell rng cx cy s x y hx hy
  rw [hn]
  exact changeCellBody_colorIndex_mem rng cx cy x y _ (h x y hx hy)

/-- C12: `initializeGrid` gives every cell a `colorIndex` in `[0, 16)` (for `rand()` in
`[0, RAND_MAX]`); for every grid whose cells all have `colorIndex` in `[0, 16)`, every
click and every random source, after `changeCell` every cell again has `colorIndex` in
`[0, 16)`; hence in every state the program reaches the index of the palette lookup
`colors[cell->colorIndex]` is inside the palette of `NUM_COLORS = 16` entries. -/
theorem palette_index_invariant (rng : Rng) (hrng : rng.WellFormed) :
    (∀ (s : State) (x y : ℕ), x < GRID_SIZE → y < GRID_SIZE →
        0 ≤ ((initializeGrid rng s).grid x y).colorIndex ∧
          ((initializeGrid rng s).grid x y).colorIndex < 16) ∧
      (∀ (rng' : Rng) (cx cy : ℤ) (s : State),
        (∀ x y, x < GRID_SIZE → y < GRID_SIZE →
          0 ≤ (s.grid x y).colorIndex ∧ (s.grid x y).colorIndex < 16) →
        ∀ x y, x < GRID_SIZE → y < GRID_SIZE →
          0 ≤ ((changeCell rng' cx cy s).grid x y).colorIndex ∧
            ((changeCell rng' cx cy s).grid x y).colorIndex < 16) ∧
      ∀ (clicks : List (ℤ × ℤ)) (x y : ℕ), x < GRID_SIZE → y < GRID_SIZE →
        0 ≤ ((runClicks rng clicks).grid x y).colorIndex ∧
          ((runClicks rng clicks).grid x y).colorIndex < NUM_COLORS := by
  have h16 : ((NUM_COLORS : ℕ) : ℤ) = 16 := by norm_num [NUM_COLORS]
  refine ⟨?_, ?_, ?_⟩
  · intro s x y hx hy
    have := initializeGrid_colorIndex_mem rng hrng s x y hx hy
    rwa [h16] at this
  · intro rng' cx cy s h x y hx hy
    have := changeCell_colorIndex_mem rng' cx cy s (fun x y hx hy => by
      rw [h16]
      exact h x y hx hy) x y hx hy
    rwa [h16] at this
  · intro clicks
    induction clicks using List.reverseRecOn with
    | nil =>
      intro x y hx hy
      simp only [runClicks, List.foldl_nil]
      exact initializeGrid_colorIndex_mem rng hrng startState x y hx hy
    | append_singleton l c ih =>
      intro x y hx hy
      rw [runClicks_snoc]
      exact changeCell_colorIndex_mem rng c.1 c.2 _ ih x y hx hy

/-- C12 at a concrete input: the cell `(6, 6)` after a click on it. -/
theorem palette_index_invariant_witness :
    midRng.WellFormed ∧
      0 ≤ ((runClicks midRng [(6, 6)]).grid 6 6).colorIndex ∧
      ((runClicks midRng [(6, 6)]).grid 6 6).colorIndex < NUM_COLORS :=
  ⟨midRng_wellFormed,
    (palette_index_invariant midRng midRng_wellFormed).2.2 [(6, 6)] 6 6 (by decide)
      (by decide)⟩

/-! ## Reachable energy envelope -/

/-- The loop body of `changeCell` keeps the energy at most `1.025`. -/
theorem changeCellBody_energy_le (rng : Rng) (hrng : rng.WellFormed) (cx cy : ℤ)
    (x y : ℕ) (s : State) (h : (s.grid x y).energy ≤ 1.025) :
    ((changeCellBody rng cx cy x y s).grid x y).energy ≤ 1.025 := by
  by_cases hd : distance cx cy x y ≤ MAX_EFFECT_RADIUS
  · rw [changeCellBody_inside _ _ _ _ _ _ hd]
    obtain ⟨hs0, hs1⟩ := effectStrength_mem _ (distance_nonneg _ _ _ _) hd
    obtain ⟨-, hj1⟩ := randf_mem rng hrng s.rand_calls
    have h1 : max 0 (min 1 ((s.grid x y).energy +
        ENERGY_INCREASE * effectStrength (distance cx cy x y))) ≤ 1 :=
      max_le zero_le_one (min_le_left _ _)
    have h2 : (randf rng s.rand_calls - 0.5) * effectStrength (distance cx cy x y) ≤
        0.5 * 1 :=
      mul_le_mul (by linarith) hs1 hs0 (by norm_num)
    simp only []
    nlinarith
  · rw [changeCellBody_outside _ _ _ _ _ _ (not_le.mp hd)]
    simp only []
    exact max_le (by norm_num) (by linarith)

/-- In every state the program reaches, every cell has energy at most `1.025`. -/
theorem runClicks_energy_le (rng : Rng) (hrng : rng.WellFormed) (clicks : List (ℤ × ℤ))
    (x y : ℕ) (hx : x < GRID_SIZE) (hy : y < GRID_SIZE) :
    ((runClicks rng clicks).grid x y).energy ≤ 1.025 := by
  induction clicks using List.reverseRecOn generalizing x y with
  | nil =>
    obtain ⟨n, hn⟩ := initializeGrid_cell rng startState x y hx hy
    simp only [runClicks, List.foldl_nil]
    rw [hn, initializeGridBody_cell]
    have := (randf_mem rng hrng n).2
    simp only []
    linarith
  | append_singleton l c ih =>
    rw [runClicks_snoc]
    obtain ⟨n, hn⟩ := changeCell_cell rng c.1 c.2 (runClicks rng l) x y hx hy
    rw [hn]
    exact changeCellBody_energy_le rng hrng c.1 c.2 x y _ (ih x y hx hy)

/-- In every state the program reaches, the frequency and the amplitude of every cell
are the ones derived from its energy. -/
theorem runClicks_derived (rng : Rng) (clicks : List (ℤ × ℤ))
    (x y : ℕ) (hx : x < GRID_SIZE) (hy : y < GRID_SIZE) :
    ((runClicks rng clicks).grid x y).frequency =
        1 + 3 * ((runClicks rng clicks).grid x y).energy ∧
      ((runClicks rng clicks).grid x y).amplitude =
        0.5 + 0.5 * ((runClicks rng clicks).grid x y).energy := by
  induction clicks using List.reverseRecOn with
  | nil =>
    obtain ⟨n, hn⟩ := initializeGrid_cell rng startState x y hx hy
    simp only [runClicks, List.foldl_nil]
    rw [hn, initializeGridBody_cell]
    exact ⟨by ring, by ring⟩
  | append_singleton l c _ =>
    rw [runClicks_snoc]
    obtain ⟨n, hn⟩ := changeCell_cell rng c.1 c.2 (runClicks rng l) x y hx hy
    rw [hn]
    by_cases hd : distance c.1 c.2 x y ≤ MAX_EFFECT_RADIUS
    · rw [changeCellBody_inside _ _ _ _ _ _ hd]
      exact ⟨by ring, by ring⟩
    · rw [changeCellBody_outside _ _ _ _ _ _ (not_le.mp hd)]
      exact ⟨by ring, by ring⟩

/-- C18: in every state reached from `initializeGrid` by any sequence of `changeCell`
calls, with `rand()` in `[0, RAND_MAX]` (jitter draws in `[0, 1]`), every cell has its
energy in `[-0.025, 1.025]`, its `frequency = 1 + 3 * energy` at least `0.925` and so
strictly positive, and its `amplitude = 0.5 + 0.5 * energy` in `[0.4875, 1.0125]`. -/
theorem energy_envelope (rng : Rng) (hrng : rng.WellFormed) (clicks : List (ℤ × ℤ))
    (x y : ℕ) (hx : x < GRID_SIZE) (hy : y < GRID_SIZE) :
    (-0.025 ≤ ((runClicks rng clicks).grid x y).energy ∧
        ((runClicks rng clicks).grid x y).energy ≤ 1.025) ∧
      (((runClicks rng clicks).grid x y).frequency =
          1 + 3 * ((runClicks rng clicks).grid x y).energy ∧
        0.925 ≤ ((runClicks rng clicks).grid x y).frequency ∧
        0 < ((runClicks rng clicks).grid x y).frequency) ∧
      (((runClicks rng clicks).grid x y).amplitude =
          0.5 + 0.5 * ((runClicks rng clicks).grid x y).energy ∧
        0.4875 ≤ ((runClicks rng clicks).grid x y).amplitude ∧
        ((runClicks rng clicks).grid x y).amplitude ≤ 1.0125) := by
  have h0 := runClicks_energy_nonneg rng hrng clicks x y hx hy
  have h1 := runClicks_energy_le rng hrng clicks x y hx hy
  obtain ⟨hf, ha⟩ := runClicks_derived rng clicks x y hx hy
  refine ⟨⟨by linarith, h1⟩, ⟨hf, ?_, ?_⟩, ⟨ha, ?_, ?_⟩⟩
  · rw [hf]
    linarith
  · rw [hf]
    linarith
  · rw [ha]
    linarith
  · rw [ha]
    linarith

/-- C18 at a concrete input: the clicked cell `(0, 0)` of the run in which `randf()` is
always `1`, whose energy is `1.025`. -/
theorem energy_envelope_witness :
    maxRng.WellFormed ∧
      -0.025 ≤ ((runClicks maxRng [(0, 0)]).grid 0 0).energy ∧
      ((runClicks maxRng [(0, 0)]).grid 0 0).energy ≤ 1.025 :=
  ⟨maxRng_wellFormed,
    (energy_envelope maxRng maxRng_wellFormed [(0, 0)] 0 0 (by decide) (by decide)).1⟩

/-! ## The render tick -/

/-- C14: one render tick (`simulation_time += 0.016`, then the pixel loops of
`drawCanvas`) leaves the grid, every field of every cell, as it was, and the position
of the `rand()` stream too; only `simulation_time` changes, by `0.016`. The frame it
produces holds at each pixel `(x, y)` the word `drawPixel` computes there, whatever the
buffer held before, and that word is the same for any two states that agree on the
`12 * 12` cells of the grid and on `simulation_time`. -/
theorem render_read_only (sin_table : ℕ → ℝ) (colors : ℤ → ℕ) (s : State)
    (pixels : ℕ → ℕ) :
    ((renderTick sin_table colors s pixels).1.grid = s.grid ∧
        (renderTick sin_table colors s pixels).1.rand_calls = s.rand_calls ∧
        (renderTick sin_table colors s pixels).1.simulation_time =
          s.simulation_time + 0.016) ∧
      (∃ buf : ℕ → ℕ, (renderTick sin_table colors s pixels).2 = some buf ∧
        ∀ x y, x < WINDOW_WIDTH → y < WINDOW_HEIGHT →
          drawPixel sin_table colors (renderTick sin_table colors s pixels).1 x y =
            some (buf (y * WINDOW_WIDTH + x))) ∧
      ∀ s1 s2 : State,
        (∀ i j, i < GRID_SIZE → j < GRID_SIZE → s1.grid i j = s2.grid i j) →
        s1.simulation_time = s2.simulation_time →
        ∀ x y, drawPixel sin_table colors s1 x y = drawPixel sin_table colors s2 x y := by
  have h1 : (renderTick sin_table colors s pixels).1 =
      { s with simulation_time := s.simulation_time + 0.016 } := by
    simp only [renderTick]
  have h2 : (renderTick sin_table colors s pixels).2 =
      drawCanvas sin_table colors { s with simulation_time := s.simulation_time + 0.016 }
        pixels := by
    simp only [renderTick]
  refine ⟨⟨by rw [h1], by rw [h1], by rw [h1]⟩, ?_, ?_⟩
  · rw [h1, h2]
    exact drawCanvas_spec sin_table colors _ pixels
  · intro s1 s2 hgrid ht x y
    apply drawPixel_congr
    apply accumulate_congr
    intro i j hi hj
    rw [hgrid i j hi hj, ht]
    exact ⟨rfl, rfl⟩

/-! ## Packing -/

/-- The word packed from three bytes: opaque alpha on top, then `r`, `g`, `b`. -/
theorem packChannels_eq (r g b : ℕ) (hr : r < 256) (hg : g < 256) (hb : b < 256) :
    packChannels r g b = 255 * 2 ^ 24 + r * 2 ^ 16 + g * 2 ^ 8 + b := by
  unfold packChannels
  have h1 : (255 <<< 24) % 2 ^ 32 = 2 ^ 24 * 255 := by decide
  have h2 : (r <<< 16) % 2 ^ 32 = 2 ^ 16 * r := by
    rw [Nat.shiftLeft_eq, Nat.mod_eq_of_lt (by omega)]
    ring
  have h3 : (g <<< 8) % 2 ^ 32 = 2 ^ 8 * g := by
    rw [Nat.shiftLeft_eq, Nat.mod_eq_of_lt (by omega)]
    ring
  rw [h1, h2, h3]
  have a1 : 2 ^ 24 * 255 ||| 2 ^ 16 * r = 2 ^ 16 * (2 ^ 8 * 255 + r) := by
    rw [← Nat.mul_add_lt_is_or (by omega : 2 ^ 16 * r < 2 ^ 24) 255]
    ring
  have a2 : 2 ^ 16 * (2 ^ 8 * 255 + r) ||| 2 ^ 8 * g =
      2 ^ 8 * (2 ^ 8 * (2 ^ 8 * 255 + r) + g) := by
    rw [← Nat.mul_add_lt_is_or (by omega : 2 ^ 8 * g < 2 ^ 16) (2 ^ 8 * 255 + r)]
    ring
  have a3 : 2 ^ 8 * (2 ^ 8 * (2 ^ 8 * 255 + r) + g) ||| b =
      2 ^ 8 * (2 ^ 8 * (2 ^ 8 * 255 + r) + g) + b := by
    rw [← Nat.mul_add_lt_is_or (by omega : b < 2 ^ 8)]
  rw [a1, a2, a3]
  ring

/-- The bytes of a word packed from three bytes. -/
theorem packChannels_bytes (r g b : ℕ) (hr : r < 256) (hg : g < 256) (hb : b < 256) :
    packChannels r g b < 2 ^ 32 ∧ (packChannels r g b >>> 24) &&& 0xFF = 255 ∧
      (packChannels r g b >>> 16) &&& 0xFF = r ∧ (packChannels r g b >>> 8) &&& 0xFF = g ∧
      packChannels r g b &&& 0xFF = b := by
  have hm : ∀ n : ℕ, n &&& 0xFF = n % 256 := by
    intro n
    have := Nat.and_pow_two_sub_one_eq_mod n 8
    simpa using this
  simp only [hm, Nat.shiftRight_eq_div_pow]
  rw [packChannels_eq r g b hr hg hb]
  refine ⟨by omega, by omega, by omega, by omega, by omega⟩

/-- The cast to `Uint32` of a float in `[0, 2^32)` is its truncation. -/
theorem toUint32_eq_truncf (v : ℝ) (h0 : 0 ≤ v) (h1 : v < 2 ^ 32) :
    ((toUint32 v : ℕ) : ℤ) = truncf v := by
  have hf0 : 0 ≤ ⌊v⌋ := Int.floor_nonneg.mpr h0
  have hf1 : ⌊v⌋ < 2 ^ 32 := by
    rw [Int.floor_lt]
    exact_mod_cast h1
  unfold toUint32
  rw [truncf_of_nonneg v h0, Int.emod_eq_of_lt hf0 hf1, Int.toNat_of_nonneg hf0]

/-- The tone-mapping chain after the contrast step, on channels of `[0, 255]`: each
channel of its value is in `[25.5, 255]`. -/
theorem boostAndFloor_real_mem (c : RGB) (hr : 0 ≤ c.r) (hg : 0 ≤ c.g) (hb : 0 ≤ c.b)
    (hr' : c.r ≤ 255) (hg' : c.g ≤ 255) (hb' : c.b ≤ 255) :
    ∃ c' : RGB, boostAndFloor c = some c' ∧ (25.5 ≤ c'.r ∧ c'.r ≤ 255) ∧
      (25.5 ≤ c'.g ∧ c'.g ≤ 255) ∧ (25.5 ≤ c'.b ∧ c'.b ≤ 255) := by
  obtain ⟨cb, hcb, h1, h2, h3⟩ := colorBoost_mem c hr hg hb hr' hg' hb'
  have hfloor : ∀ v : ℝ, v ≤ 255 → 25.5 ≤ max v (255 * 0.1) ∧ max v (255 * 0.1) ≤ 255 :=
    fun v hv => ⟨le_trans (by norm_num) (le_max_right _ _), max_le hv (by norm_num)⟩
  refine ⟨minBrightness cb, ?_, hfloor cb.r h1.2, hfloor cb.g h2.2, hfloor cb.b h3.2⟩
  unfold boostAndFloor
  rw [hcb, Option.map_some']

/-- C17: for every state, palette and pixel `(x, y)` of the window, the word that
`drawCanvas` writes for the pixel is a 32-bit word whose top byte (bits 24-31) is `255`
and whose bits 16-23, 8-15 and 0-7 are the truncations of the tone-mapped channels `r`,
`g` and `b`: no channel spills into a neighbouring byte. -/
theorem pixel_packing (sin_table : ℕ → ℝ) (colors : ℤ → ℕ) (s : State) (pixels : ℕ → ℕ) :
    ∃ buf : ℕ → ℕ, drawCanvas sin_table colors s pixels = some buf ∧
      ∀ x y, x < WINDOW_WIDTH → y < WINDOW_HEIGHT →
        ∃ c : RGB,
          boostAndFloor (contrastRemap (accumulate sin_table colors s x y)) = some c ∧
            buf (y * WINDOW_WIDTH + x) < 2 ^ 32 ∧
            (buf (y * WINDOW_WIDTH + x) >>> 24) &&& 0xFF = 255 ∧
            ((((buf (y * WINDOW_WIDTH + x) >>> 16) &&& 0xFF : ℕ) : ℤ) = truncf c.r) ∧
            ((((buf (y * WINDOW_WIDTH + x) >>> 8) &&& 0xFF : ℕ) : ℤ) = truncf c.g) ∧
            (((buf (y * WINDOW_WIDTH + x) &&& 0xFF : ℕ) : ℤ) = truncf c.b) := by
  obtain ⟨buf, hbuf, hpix⟩ := drawCanvas_spec sin_table colors s pixels
  refine ⟨buf, hbuf, ?_⟩
  intro x y hx hy
  obtain ⟨c, hc, h1, h2, h3⟩ :=
    boostAndFloor_real_mem (contrastRemap (accumulate sin_table colors s x y))
      (contrastChannel_mem _).1 (contrastChannel_mem _).1 (contrastChannel_mem _).1
      (contrastChannel_mem _).2 (contrastChannel_mem _).2 (contrastChannel_mem _).2
  have hword : buf (y * WINDOW_WIDTH + x) =
      packChannels (toUint32 c.r) (toUint32 c.g) (toUint32 c.b) := by
    have hdraw := hpix x y hx hy
    unfold drawPixel at hdraw
    rw [hc, Option.map_some'] at hdraw
    exact (Option.some.inj hdraw).symm
  have hcast : ∀ v : ℝ, 25.5 ≤ v → v ≤ 255 →
      ((toUint32 v : ℕ) : ℤ) = truncf v ∧ toUint32 v < 256 := by
    intro v hlo hhi
    have e := toUint32_eq_truncf v (by linarith) (by linarith)
    refine ⟨e, ?_⟩
    have hf : truncf v ≤ 255 := by
      rw [truncf_of_nonneg v (by linarith)]
      have : ⌊v⌋ ≤ ⌊(255 : ℝ)⌋ := Int.floor_mono hhi
      simpa using this
    omega
  obtain ⟨er, lr⟩ := hcast c.r h1.1 h1.2
  obtain ⟨eg, lg⟩ := hcast c.g h2.1 h2.2
  obtain ⟨eb, lb⟩ := hcast c.b h3.1 h3.2
  obtain ⟨p1, p2, p3, p4, p5⟩ := packChannels_bytes _ _ _ lr lg lb
  refine ⟨c, hc, ?_, ?_, ?_, ?_, ?_⟩
  · rw [hword]
    exact p1
  · rw [hword]
    exact p2
  · rw [hword, p3]
    exact er
  · rw [hword, p4]
    exact eg
  · rw [hword, p5]
    exact eb

/-! ## Rounding to nearest -/

theorem two_zpow_log_le (v : ℝ) (hv : 0 < v) : (2 : ℝ) ^ Int.log 2 v ≤ v := by
  have := @Int.zpow_log_le_self ℝ _ _ 2 v (by norm_num) hv
  simpa using this

theorem lt_two_zpow_log_succ (v : ℝ) : v < (2 : ℝ) ^ (Int.log 2 v + 1) := by
  have := @Int.lt_zpow_succ_log_self ℝ _ _ 2 (by norm_num) v
  simpa using this

theorem log_two_eq (v : ℝ) (e : ℤ) (h1 : (2 : ℝ) ^ e ≤ v) (h2 : v < (2 : ℝ) ^ (e + 1)) :
    Int.log 2 v = e := by
  have hv : 0 < v := lt_of_lt_of_le (zpow_pos (by norm_num) e) h1
  have a : e ≤ Int.log 2 v := by
    rw [← Int.zpow_le_iff_le_log (by norm_num) hv]
    simpa using h1
  have b : Int.log 2 v < e + 1 := by
    rw [← Int.lt_zpow_iff_log_lt (by norm_num) hv]
    simpa using h2
  omega

/-- What the rounding of a positive number is: an integer multiple `k` of the unit in the
last place of its binade, with `k` an integer nearest to the quotient. -/
theorem roundNearestEven_spec (p : ℕ) (v : ℝ) (hv : 0 < v) :
    ∃ k : ℤ,
      roundNearestEven p v = (k : ℝ) * (2 : ℝ) ^ (Int.log 2 v - ((p : ℤ) - 1)) ∧
        ⌊v / (2 : ℝ) ^ (Int.log 2 v - ((p : ℤ) - 1))⌋ ≤ k ∧
        k ≤ ⌊v / (2 : ℝ) ^ (Int.log 2 v - ((p : ℤ) - 1))⌋ + 1 ∧
        |(k : ℝ) - v / (2 : ℝ) ^ (Int.log 2 v - ((p : ℤ) - 1))| ≤ 1 / 2 := by
  unfold roundNearestEven
  rw [if_neg hv.ne', abs_of_pos hv]
  simp only []
  set q := v / (2 : ℝ) ^ (Int.log 2 v - ((p : ℤ) - 1)) with hq
  have h1 : (⌊q⌋ : ℝ) ≤ q := Int.floor_le q
  have h2 : q < (⌊q⌋ : ℝ) + 1 := Int.lt_floor_add_one q
  by_cases c1 : q - (⌊q⌋ : ℝ) < 1 / 2
  · refine ⟨⌊q⌋, by rw [if_pos c1], le_refl _, by omega, ?_⟩
    rw [abs_le]
    constructor <;> linarith
  · by_cases c2 : 1 / 2 < q - (⌊q⌋ : ℝ)
    · refine ⟨⌊q⌋ + 1, by rw [if_neg c1, if_pos c2], by omega, le_refl _, ?_⟩
      rw [abs_le]
      push_cast
      constructor <;> linarith
    · have c3 : q - (⌊q⌋ : ℝ) = 1 / 2 := le_antisymm (not_lt.mp c2) (not_lt.mp c1)
      by_cases c4 : ⌊q⌋ % 2 = 0
      · refine ⟨⌊q⌋, by rw [if_neg c1, if_neg c2, if_pos c4], le_refl _, by omega, ?_⟩
        rw [abs_le]
        constructor <;> linarith
      · refine ⟨⌊q⌋ + 1, by rw [if_neg c1, if_neg c2, if_neg c4], by omega, le_refl _, ?_⟩
        rw [abs_le]
        push_cast
        constructor <;> linarith

theorem two_zpow_pos (z : ℤ) : (0 : ℝ) < (2 : ℝ) ^ z := zpow_pos (by norm_num) z

/-- The rounding of a positive number is not negative. -/
theorem roundNearestEven_nonneg (p : ℕ) (v : ℝ) (hv : 0 < v) : 0 ≤ roundNearestEven p v := by
  obtain ⟨k, hk, hlo, -, -⟩ := roundNearestEven_spec p v hv
  have hu := two_zpow_pos (Int.log 2 v - ((p : ℤ) - 1))
  have hq : 0 ≤ v / (2 : ℝ) ^ (Int.log 2 v - ((p : ℤ) - 1)) := (div_pos hv hu).le
  have hk0 : (0 : ℤ) ≤ k := le_trans (Int.floor_nonneg.mpr hq) hlo
  rw [hk]
  have : (0 : ℝ) ≤ (k : ℝ) := by exact_mod_cast hk0
  positivity

/-- The rounding error is at most half a unit in the last place: relative error at
most `2 ^ (-p)`. -/
theorem roundNearestEven_error (p : ℕ) (v : ℝ) (hv : 0 < v) :
    |roundNearestEven p v - v| ≤ v * (2 : ℝ) ^ (-(p : ℤ)) := by
  obtain ⟨k, hk, -, -, hnear⟩ := roundNearestEven_spec p v hv
  have hu := two_zpow_pos (Int.log 2 v - ((p : ℤ) - 1))
  set u := (2 : ℝ) ^ (Int.log 2 v - ((p : ℤ) - 1)) with hudef
  have e1 : roundNearestEven p v - v = ((k : ℝ) - v / u) * u := by
    rw [hk]
    field_simp
  rw [e1, abs_mul, abs_of_pos hu]
  have h1 : |(k : ℝ) - v / u| * u ≤ 1 / 2 * u := mul_le_mul_of_nonneg_right hnear hu.le
  have h2 : 1 / 2 * u = (2 : ℝ) ^ Int.log 2 v * (2 : ℝ) ^ (-(p : ℤ)) := by
    rw [hudef, ← zpow_add₀ (by norm_num : (2 : ℝ) ≠ 0)]
    have : Int.log 2 v - ((p : ℤ) - 1) = (Int.log 2 v + -(p : ℤ)) + 1 := by ring
    rw [this, zpow_add₀ (by norm_num : (2 : ℝ) ≠ 0) _ 1, zpow_one]
    ring
  have h3 : (2 : ℝ) ^ Int.log 2 v * (2 : ℝ) ^ (-(p : ℤ)) ≤ v * (2 : ℝ) ^ (-(p : ℤ)) :=
    mul_le_mul_of_nonneg_right (two_zpow_log_le v hv) (two_zpow_pos _).le
  linarith

/-- A number with `p` significant bits that is at least `2 ^ e` is a whole multiple of the
unit in the last place of the binade `e`. -/
theorem multiple_of_ulp (p : ℕ) (m : ℕ) (t e : ℤ) (hm : m < 2 ^ p)
    (h : (2 : ℝ) ^ e ≤ (m : ℝ) * (2 : ℝ) ^ t) :
    ∃ K : ℤ, (m : ℝ) * (2 : ℝ) ^ t = (K : ℝ) * (2 : ℝ) ^ (e - ((p : ℤ) - 1)) := by
  have hm' : (m : ℝ) < (2 : ℝ) ^ (p : ℤ) := by
    rw [zpow_natCast]
    exact_mod_cast hm
  have h1 : (2 : ℝ) ^ e < (2 : ℝ) ^ ((p : ℤ) + t) := by
    rw [zpow_add₀ (by norm_num : (2 : ℝ) ≠ 0)]
    exact lt_of_le_of_lt h (mul_lt_mul_of_pos_right hm' (two_zpow_pos t))
  have h2 : e < (p : ℤ) + t := (zpow_lt_zpow_iff_right₀ (by norm_num : (1 : ℝ) < 2)).mp h1
  have h3 : 0 ≤ t - (e - ((p : ℤ) - 1)) := by omega
  refine ⟨(m : ℤ) * 2 ^ (t - (e - ((p : ℤ) - 1))).toNat, ?_⟩
  have h4 : (2 : ℝ) ^ t =
      (2 : ℝ) ^ (((t - (e - ((p : ℤ) - 1))).toNat : ℤ)) * (2 : ℝ) ^ (e - ((p : ℤ) - 1)) := by
    rw [← zpow_add₀ (by norm_num : (2 : ℝ) ≠ 0), Int.toNat_of_nonneg h3]
    congr 1
    ring
  rw [h4, zpow_natCast]
  push_cast
  ring

/-- Rounding does not go above a number with `p` significant bits that the rounded number
does not exceed. -/
theorem roundNearestEven_le (p : ℕ) (v : ℝ) (hv : 0 < v) (m : ℕ) (t : ℤ) (hm : m < 2 ^ p)
    (h : v ≤ (m : ℝ) * (2 : ℝ) ^ t) : roundNearestEven p v ≤ (m : ℝ) * (2 : ℝ) ^ t := by
  obtain ⟨k, hk, -, hhi, hnear⟩ := roundNearestEven_spec p v hv
  have hu := two_zpow_pos (Int.log 2 v - ((p : ℤ) - 1))
  obtain ⟨K, hK⟩ := multiple_of_ulp p m t (Int.log 2 v) hm (le_trans (two_zpow_log_le v hv) h)
  rw [hk, hK]
  apply mul_le_mul_of_nonneg_right _ hu.le
  have hq : v / (2 : ℝ) ^ (Int.log 2 v - ((p : ℤ) - 1)) ≤ (K : ℝ) := by
    rw [div_le_iff₀ hu, ← hK]
    exact h
  have hfl : ⌊v / (2 : ℝ) ^ (Int.log 2 v - ((p : ℤ) - 1))⌋ ≤ K := by
    have := Int.floor_mono hq
    simpa using this
  by_cases c : ⌊v / (2 : ℝ) ^ (Int.log 2 v - ((p : ℤ) - 1))⌋ = K
  · -- the quotient is the integer `K` itself
    have hqeq : v / (2 : ℝ) ^ (Int.log 2 v - ((p : ℤ) - 1)) = (K : ℝ) :=
      le_antisymm hq (by rw [← c]; exact Int.floor_le _)
    rw [hqeq] at hnear
    have : |((k - K : ℤ) : ℝ)| ≤ 1 / 2 := by
      push_cast
      exact hnear
    have hlt : |((k - K : ℤ) : ℝ)| < 1 := by linarith
    have : |k - K| < 1 := by exact_mod_cast hlt
    have : k = K := by
      rw [abs_lt] at this
      omega
    rw [this]
  · have : k ≤ K := by omega
    exact_mod_cast this

/-- Rounding does not go below a non-negative number with `p` significant bits that does
not exceed the rounded number. -/
theorem roundNearestEven_ge (p : ℕ) (hp : 0 < p) (v : ℝ) (hv : 0 < v) (m : ℕ) (t : ℤ)
    (hm : m < 2 ^ p) (h : (m : ℝ) * (2 : ℝ) ^ t ≤ v) :
    (m : ℝ) * (2 : ℝ) ^ t ≤ roundNearestEven p v := by
  obtain ⟨k, hk, hlo, -, -⟩ := roundNearestEven_spec p v hv
  have hu := two_zpow_pos (Int.log 2 v - ((p : ℤ) - 1))
  have hfloor : ∀ K : ℤ, (K : ℝ) * (2 : ℝ) ^ (Int.log 2 v - ((p : ℤ) - 1)) ≤ v →
      (K : ℝ) * (2 : ℝ) ^ (Int.log 2 v - ((p : ℤ) - 1)) ≤ roundNearestEven p v := by
    intro K hKv
    rw [hk]
    apply mul_le_mul_of_nonneg_right _ hu.le
    have hq : (K : ℝ) ≤ v / (2 : ℝ) ^ (Int.log 2 v - ((p : ℤ) - 1)) := by
      rw [le_div_iff₀ hu]
      exact hKv
    have : K ≤ ⌊v / (2 : ℝ) ^ (Int.log 2 v - ((p : ℤ) - 1))⌋ := Int.le_floor.mpr hq
    have : K ≤ k := le_trans this hlo
    exact_mod_cast this
  by_cases c : (2 : ℝ) ^ Int.log 2 v ≤ (m : ℝ) * (2 : ℝ) ^ t
  · obtain ⟨K, hK⟩ := multiple_of_ulp p m t (Int.log 2 v) hm c
    rw [hK]
    apply hfloor
    rw [← hK]
    exact h
  · -- the bound is below the binade: the start of the binade is a multiple too
    have hstart : (2 : ℝ) ^ Int.log 2 v =
        (((2 : ℤ) ^ (p - 1) : ℤ) : ℝ) * (2 : ℝ) ^ (Int.log 2 v - ((p : ℤ) - 1)) := by
      push_cast
      rw [← zpow_natCast, ← zpow_add₀ (by norm_num : (2 : ℝ) ≠ 0)]
      congr 1
      have : ((p - 1 : ℕ) : ℤ) = (p : ℤ) - 1 := by omega
      rw [this]
      ring
    have h1 := hfloor ((2 : ℤ) ^ (p - 1)) (by rw [← hstart]; exact two_zpow_log_le v hv)
    rw [← hstart] at h1
    linarith [not_le.mp c]

/-- A positive number with `p` significant bits is its own rounding. -/
theorem roundNearestEven_of_rep (p : ℕ) (hp : 0 < p) (m : ℕ) (t : ℤ) (hm : m < 2 ^ p)
    (hpos : 0 < m) : roundNearestEven p ((m : ℝ) * (2 : ℝ) ^ t) = (m : ℝ) * (2 : ℝ) ^ t := by
  have hv : 0 < (m : ℝ) * (2 : ℝ) ^ t := by
    have : (0 : ℝ) < (m : ℝ) := by exact_mod_cast hpos
    exact mul_pos this (two_zpow_pos t)
  exact le_antisymm (roundNearestEven_le p _ hv m t hm (le_refl _))
    (roundNearestEven_ge p hp _ hv m t hm (le_refl _))

/-- The rounding of a positive number, from its binade and an integer within half a unit
of the quotient. -/
theorem roundNearestEven_eq (p : ℕ) (v : ℝ) (e k : ℤ) (h1 : (2 : ℝ) ^ e ≤ v)
    (h2 : v < (2 : ℝ) ^ (e + 1))
    (h3 : |(k : ℝ) - v / (2 : ℝ) ^ (e - ((p : ℤ) - 1))| < 1 / 2) :
    roundNearestEven p v = (k : ℝ) * (2 : ℝ) ^ (e - ((p : ℤ) - 1)) := by
  have hv : 0 < v := lt_of_lt_of_le (two_zpow_pos e) h1
  obtain ⟨k', hk', -, -, hnear⟩ := roundNearestEven_spec p v hv
  rw [log_two_eq v e h1 h2] at hk' hnear
  have hlt : |((k' - k : ℤ) : ℝ)| < 1 := by
    push_cast
    have := abs_sub_le (k' : ℝ) (v / (2 : ℝ) ^ (e - ((p : ℤ) - 1))) (k : ℝ)
    rw [abs_sub_comm (v / (2 : ℝ) ^ (e - ((p : ℤ) - 1))) (k : ℝ)] at this
    linarith
  have : |k' - k| < 1 := by exact_mod_cast hlt
  have hkk : k' = k := by
    rw [abs_lt] at this
    omega
  rw [hk', hkk]

/-- The rounding of a positive number is positive. -/
theorem roundNearestEven_pos (p : ℕ) (hp : 0 < p) (v : ℝ) (hv : 0 < v) :
    0 < roundNearestEven p v := by
  have h1 : 1 < 2 ^ p := Nat.one_lt_two_pow (by omega)
  have := roundNearestEven_ge p hp v hv 1 (Int.log 2 v) h1 (by
    rw [Nat.cast_one, one_mul]
    exact two_zpow_log_le v hv)
  rw [Nat.cast_one, one_mul] at this
  exact lt_of_lt_of_le (two_zpow_pos _) this

/-- The `double` constant `PI`. -/
theorem PI_f64_eq : PI_f64 = 7074237752028440 / 2 ^ 51 := by
  unfold PI_f64 roundF64
  rw [roundNearestEven_eq 53 _ 1 7074237752028440 (by norm_num) (by norm_num) (by
    rw [abs_lt]
    norm_num)]
  norm_num

/-- The `double` product `2 * PI` is exact. -/
theorem two_PI_f64_eq : roundF64 (2 * PI_f64) = 7074237752028440 / 2 ^ 50 := by
  rw [PI_f64_eq]
  unfold roundF64
  have h := roundNearestEven_of_rep 53 (by norm_num) 7074237752028440 (-50) (by norm_num)
    (by norm_num)
  have e : (2 : ℝ) * (7074237752028440 / 2 ^ 51) =
      ((7074237752028440 : ℕ) : ℝ) * (2 : ℝ) ^ (-50 : ℤ) := by
    norm_num
  rw [e, h]
  norm_num

/-- The `float` nearest the `double` `2 * PI`: `6.2831854820251465`, above `2π`. -/
theorem F2PI_eq : roundF32 (roundF64 (2 * PI_f64)) = 13176795 / 2 ^ 21 := by
  rw [two_PI_f64_eq]
  unfold roundF32
  rw [roundNearestEven_eq 24 _ 2 13176795 (by norm_num) (by norm_num) (by
    rw [abs_lt]
    norm_num)]
  norm_num

/-! ## The remainder of a float -/

/-- The C library `fmodf` with a positive divisor: the value is the dividend minus a whole
multiple of the divisor, smaller than the divisor, no larger than the dividend, and of
the sign of the dividend. -/
theorem fmodf_spec (x y : ℝ) (hy : 0 < y) :
    (∃ n : ℤ, fmodf x y = x - (n : ℝ) * y) ∧ |fmodf x y| < y ∧ |fmodf x y| ≤ |x| ∧
      (0 ≤ x → 0 ≤ fmodf x y) ∧ (x < 0 → fmodf x y ≤ 0) := by
  have hx : x / y * y = x := div_mul_cancel₀ x hy.ne'
  by_cases hq : 0 ≤ x / y
  · have hx0 : 0 ≤ x := by
      rw [← hx]
      exact mul_nonneg hq hy.le
    have hn : truncf (x / y) = ⌊x / y⌋ := truncf_of_nonneg _ hq
    have h1 : (⌊x / y⌋ : ℝ) ≤ x / y := Int.floor_le _
    have h2 : x / y < (⌊x / y⌋ : ℝ) + 1 := Int.lt_floor_add_one _
    have h3 := mul_le_mul_of_nonneg_right h1 hy.le
    have h4 := mul_lt_mul_of_pos_right h2 hy
    rw [hx] at h3 h4
    have hfl : (0 : ℝ) ≤ (⌊x / y⌋ : ℝ) := by exact_mod_cast Int.floor_nonneg.mpr hq
    have h5 : 0 ≤ (⌊x / y⌋ : ℝ) * y := mul_nonneg hfl hy.le
    have hr0 : 0 ≤ fmodf x y := by
      unfold fmodf
      rw [hn]
      linarith
    refine ⟨⟨⌊x / y⌋, by unfold fmodf; rw [hn]⟩, ?_, ?_, fun _ => hr0,
      fun h => absurd hx0 (not_le.mpr h)⟩
    · rw [abs_of_nonneg hr0]
      unfold fmodf
      rw [hn]
      linarith
    · rw [abs_of_nonneg hr0, abs_of_nonneg hx0]
      unfold fmodf
      rw [hn]
      linarith
  · have hx0 : x < 0 := by
      by_contra hcon
      exact hq (div_nonneg (not_lt.mp hcon) hy.le)
    have hn : truncf (x / y) = ⌈x / y⌉ := by
      unfold truncf
      rw [if_neg hq]
    have h1 : x / y ≤ (⌈x / y⌉ : ℝ) := Int.le_ceil _
    have h2 : (⌈x / y⌉ : ℝ) < x / y + 1 := Int.ceil_lt_add_one _
    have h3 := mul_le_mul_of_nonneg_right h1 hy.le
    have h4 := mul_lt_mul_of_pos_right h2 hy
    rw [add_mul, hx] at h4
    rw [hx] at h3
    have hcl : (⌈x / y⌉ : ℝ) ≤ 0 := by
      exact_mod_cast Int.ceil_le.mpr (by push_cast; exact (not_le.mp hq).le)
    have h5 : (⌈x / y⌉ : ℝ) * y ≤ 0 := mul_nonpos_of_nonpos_of_nonneg hcl hy.le
    have hr0 : fmodf x y ≤ 0 := by
      unfold fmodf
      rw [hn]
      linarith
    refine ⟨⟨⌈x / y⌉, by unfold fmodf; rw [hn]⟩, ?_, ?_, fun h => absurd h (not_le.mpr hx0),
      fun _ => hr0⟩
    · rw [abs_of_nonpos hr0]
      unfold fmodf
      rw [hn]
      linarith
    · rw [abs_of_nonpos hr0, abs_of_neg hx0]
      unfold fmodf
      rw [hn]
      linarith

/-- A dividend smaller than the divisor is left as it is. -/
theorem fmodf_of_abs_lt (x y : ℝ) (hy : 0 < y) (h : |x| < y) : fmodf x y = x := by
  have hlt : |x / y| < 1 := by
    rw [abs_div, abs_of_pos hy, div_lt_one hy]
    exact h
  rw [abs_lt] at hlt
  have hn : truncf (x / y) = 0 := by
    unfold truncf
    split
    · rw [Int.floor_eq_iff]
      constructor
      · simpa using ‹0 ≤ x / y›
      · simpa using hlt.2
    · rw [Int.ceil_eq_iff]
      constructor
      · simpa using hlt.1
      · simpa using (not_le.mp ‹¬ 0 ≤ x / y›).le
  unfold fmodf
  rw [hn]
  simp

/-- The remainder of a `float` by the `float` nearest `2π` is a `float` too, hence no
closer to minus that divisor than one unit in its last place. -/
theorem fmodf_F2PI_lower (x : ℝ) (hx : IsFloat32 x) :
    -(13176794 / 2 ^ 21 : ℝ) ≤ fmodf x (13176795 / 2 ^ 21) := by
  have hy : (0 : ℝ) < 13176795 / 2 ^ 21 := by norm_num
  obtain ⟨⟨n, hn⟩, hlt, hle, -, -⟩ := fmodf_spec x _ hy
  obtain ⟨m, e, hm, -, -, rfl⟩ := hx
  by_cases he : -21 ≤ e
  · -- the dividend is a whole multiple of `2 ^ (-21)`, and so is the remainder
    have hexp : (2 : ℝ) ^ e = (2 : ℝ) ^ (((e + 21).toNat : ℤ)) * (2 : ℝ) ^ (-21 : ℤ) := by
      rw [← zpow_add₀ (by norm_num : (2 : ℝ) ≠ 0), Int.toNat_of_nonneg (by omega)]
      congr 1
      ring
    have hZ : fmodf ((m : ℝ) * (2 : ℝ) ^ e) (13176795 / 2 ^ 21) =
        ((m * 2 ^ (e + 21).toNat - n * 13176795 : ℤ) : ℝ) * (2 : ℝ) ^ (-21 : ℤ) := by
      rw [hn, hexp, zpow_natCast]
      push_cast
      norm_num
      ring
    rw [hZ] at hlt ⊢
    set Z : ℤ := m * 2 ^ (e + 21).toNat - n * 13176795 with hZdef
    have h21 : (0 : ℝ) < (2 : ℝ) ^ (-21 : ℤ) := two_zpow_pos _
    rw [abs_mul, abs_of_pos h21] at hlt
    have h1 : |(Z : ℝ)| < 13176795 := by
      have : |(Z : ℝ)| * (2 : ℝ) ^ (-21 : ℤ) < 13176795 * (2 : ℝ) ^ (-21 : ℤ) := by
        have e' : (13176795 / 2 ^ 21 : ℝ) = 13176795 * (2 : ℝ) ^ (-21 : ℤ) := by norm_num
        rw [← e']
        exact hlt
      exact lt_of_mul_lt_mul_right this h21.le
    have h2 : |Z| < 13176795 := by exact_mod_cast h1
    have h3 : -13176794 ≤ Z := by
      rw [abs_lt] at h2
      omega
    have h4 : (-13176794 : ℝ) ≤ (Z : ℝ) := by exact_mod_cast h3
    have e'' : -(13176794 / 2 ^ 21 : ℝ) = (-13176794 : ℝ) * (2 : ℝ) ^ (-21 : ℤ) := by norm_num
    rw [e'']
    exact mul_le_mul_of_nonneg_right h4 h21.le
  · -- the dividend is below `4` in size
    have hm' : |(m : ℝ)| < 2 ^ 24 := by exact_mod_cast hm
    have hpow : (2 : ℝ) ^ e ≤ (2 : ℝ) ^ (-22 : ℤ) :=
      zpow_le_zpow_right₀ (by norm_num) (by omega)
    have habs : |(m : ℝ) * (2 : ℝ) ^ e| < 4 := by
      rw [abs_mul, abs_of_pos (two_zpow_pos e)]
      calc |(m : ℝ)| * (2 : ℝ) ^ e ≤ |(m : ℝ)| * (2 : ℝ) ^ (-22 : ℤ) :=
            mul_le_mul_of_nonneg_left hpow (abs_nonneg _)
        _ < 2 ^ 24 * (2 : ℝ) ^ (-22 : ℤ) := mul_lt_mul_of_pos_right hm' (two_zpow_pos _)
        _ = 4 := by norm_num
    have := (abs_lt.mp (lt_of_le_of_lt hle habs)).1
    have hnum : -(13176794 / 2 ^ 21 : ℝ) ≤ -4 := by norm_num
    linarith

/-! ## The table index in float arithmetic -/

theorem roundNearestEven_zero (p : ℕ) : roundNearestEven p 0 = 0 := by
  unfold roundNearestEven
  rw [if_pos rfl]

/-- In float arithmetic the reduced angle of a `float` lies between `0` and the `float`
nearest `2π`, that one included. -/
theorem reducedAngleF32_mem (x : ℝ) (hx : IsFloat32 x) :
    0 ≤ reducedAngleF32 x ∧ reducedAngleF32 x ≤ 13176795 / 2 ^ 21 := by
  have hy : (0 : ℝ) < 13176795 / 2 ^ 21 := by norm_num
  obtain ⟨-, hlt, -, -, -⟩ := fmodf_spec x _ hy
  have hlow := fmodf_F2PI_lower x hx
  unfold reducedAngleF32
  simp only [F2PI_eq]
  simp only [two_PI_f64_eq]
  by_cases hneg : fmodf x (13176795 / 2 ^ 21) < 0
  · rw [if_pos hneg]
    have hs0 : 0 < fmodf x (13176795 / 2 ^ 21) + 7074237752028440 / 2 ^ 50 := by
      have : (0 : ℝ) < 7074237752028440 / 2 ^ 50 - 13176794 / 2 ^ 21 := by norm_num
      linarith
    have hs1 : fmodf x (13176795 / 2 ^ 21) + 7074237752028440 / 2 ^ 50 ≤
        ((7074237752028440 : ℕ) : ℝ) * (2 : ℝ) ^ (-50 : ℤ) := by
      have : ((7074237752028440 : ℕ) : ℝ) * (2 : ℝ) ^ (-50 : ℤ) = 7074237752028440 / 2 ^ 50 := by
        norm_num
      rw [this]
      linarith
    unfold roundF32 roundF64
    have ha0 := roundNearestEven_pos 53 (by norm_num) _ hs0
    have ha1 := roundNearestEven_le 53 _ hs0 7074237752028440 (-50) (by norm_num) hs1
    have ha2 : roundNearestEven 53
        (fmodf x (13176795 / 2 ^ 21) + 7074237752028440 / 2 ^ 50) ≤
        ((13176795 : ℕ) : ℝ) * (2 : ℝ) ^ (-21 : ℤ) := by
      refine le_trans ha1 ?_
      norm_num
    have hb0 := roundNearestEven_nonneg 24 _ ha0
    have hb1 := roundNearestEven_le 24 _ ha0 13176795 (-21) (by norm_num) ha2
    refine ⟨hb0, le_trans hb1 ?_⟩
    norm_num
  · rw [if_neg hneg]
    exact ⟨not_lt.mp hneg, (lt_of_le_of_lt (le_abs_self _) hlt).le⟩

/-- In float arithmetic the index computed from a reduced angle between `0` and the
`float` nearest `2π` lies in `[0, 1024]` before the mask. -/
theorem rawIndexF32_mem (r : ℝ) (h0 : 0 ≤ r) (h1 : r ≤ 13176795 / 2 ^ 21) :
    0 ≤ rawIndexF32 r ∧ rawIndexF32 r ≤ 1024 := by
  unfold rawIndexF32
  simp only [two_PI_f64_eq]
  unfold roundF64
  have hN : ((SIN_TABLE_SIZE : ℕ) : ℝ) = 1024 := by norm_num [SIN_TABLE_SIZE]
  rw [hN]
  rcases h0.eq_or_lt with h | hpos
  · rw [← h]
    simp [roundNearestEven_zero, truncf]
  · have hT : (0 : ℝ) < 7074237752028440 / 2 ^ 50 := by norm_num
    have ha0 : 0 < r / (7074237752028440 / 2 ^ 50) := div_pos hpos hT
    have ha1 : r / (7074237752028440 / 2 ^ 50) ≤ ((1048577 : ℕ) : ℝ) * (2 : ℝ) ^ (-20 : ℤ) := by
      rw [div_le_iff₀ hT]
      refine le_trans h1 ?_
      norm_num
    have hb0 := roundNearestEven_pos 53 (by norm_num) _ ha0
    have hb1 := roundNearestEven_le 53 _ ha0 1048577 (-20) (by norm_num) ha1
    have hc0 : 0 < roundNearestEven 53 (r / (7074237752028440 / 2 ^ 50)) * 1024 := by
      positivity
    have hc1 : roundNearestEven 53 (r / (7074237752028440 / 2 ^ 50)) * 1024 ≤
        ((1048577 : ℕ) : ℝ) * (2 : ℝ) ^ (-10 : ℤ) := by
      have := mul_le_mul_of_nonneg_right hb1 (by norm_num : (0 : ℝ) ≤ 1024)
      refine le_trans this ?_
      norm_num
    have hd0 := roundNearestEven_nonneg 53 _ hc0
    have hd1 := roundNearestEven_le 53 _ hc0 1048577 (-10) (by norm_num) hc1
    rw [truncf_of_nonneg _ hd0]
    refine ⟨Int.floor_nonneg.mpr hd0, ?_⟩
    have hlt : roundNearestEven 53
        (roundNearestEven 53 (r / (7074237752028440 / 2 ^ 50)) * 1024) < ((1025 : ℤ) : ℝ) := by
      refine lt_of_le_of_lt hd1 ?_
      norm_num
    have := Int.floor_lt.mpr hlt
    omega

theorem land_1024 : Int.land 1024 ((SIN_TABLE_SIZE : ℤ) - 1) = 0 := by
  have : (SIN_TABLE_SIZE : ℤ) - 1 = 1023 := by norm_num [SIN_TABLE_SIZE]
  rw [this]
  decide

/-- The reduced angle of `-2 ^ (-30)` in float arithmetic is the `float` nearest `2π`. -/
theorem reducedAngleF32_small_negative :
    reducedAngleF32 (-(1 / 2 ^ 30)) = 13176795 / 2 ^ 21 := by
  unfold reducedAngleF32
  simp only [F2PI_eq]
  simp only [two_PI_f64_eq]
  have hf : fmodf (-(1 / 2 ^ 30)) (13176795 / 2 ^ 21) = -(1 / 2 ^ 30) :=
    fmodf_of_abs_lt _ _ (by norm_num) (by
      rw [abs_lt]
      constructor <;> norm_num)
  rw [hf, if_pos (by norm_num)]
  have hsum : (-(1 / 2 ^ 30) + 7074237752028440 / 2 ^ 50 : ℝ) =
      ((7074237750979864 : ℕ) : ℝ) * (2 : ℝ) ^ (-50 : ℤ) := by
    norm_num
  unfold roundF64 roundF32
  rw [hsum, roundNearestEven_of_rep 53 (by norm_num) 7074237750979864 (-50) (by norm_num)
    (by norm_num)]
  rw [roundNearestEven_eq 24 _ 2 13176795 (by norm_num) (by norm_num) (by
    rw [abs_lt]
    norm_num)]
  norm_num

/-- The index of the `float` nearest `2π` in float arithmetic is `1024`. -/
theorem rawIndexF32_F2PI : rawIndexF32 (13176795 / 2 ^ 21) = 1024 := by
  unfold rawIndexF32
  simp only [two_PI_f64_eq]
  unfold roundF64
  have hN : ((SIN_TABLE_SIZE : ℕ) : ℝ) = 1024 := by norm_num [SIN_TABLE_SIZE]
  rw [hN]
  have ha0 : (0 : ℝ) < 13176795 / 2 ^ 21 / (7074237752028440 / 2 ^ 50) := by norm_num
  have hb1 := roundNearestEven_le 53 _ ha0 1048577 (-20) (by norm_num) (by norm_num)
  have hb0 := roundNearestEven_ge 53 (by norm_num) _ ha0 1 0 (by norm_num) (by norm_num)
  have hc0 : (0 : ℝ) <
      roundNearestEven 53 (13176795 / 2 ^ 21 / (7074237752028440 / 2 ^ 50)) * 1024 := by
    have : (0 : ℝ) < roundNearestEven 53 (13176795 / 2 ^ 21 / (7074237752028440 / 2 ^ 50)) :=
      roundNearestEven_pos 53 (by norm_num) _ ha0
    positivity
  have hd1 := roundNearestEven_le 53 _ hc0 1048577 (-10) (by norm_num) (by
    have := mul_le_mul_of_nonneg_right hb1 (by norm_num : (0 : ℝ) ≤ 1024)
    refine le_trans this ?_
    norm_num)
  have hd0 := roundNearestEven_ge 53 (by norm_num) _ hc0 1 10 (by norm_num) (by
    have := mul_le_mul_of_nonneg_right hb0 (by norm_num : (0 : ℝ) ≤ 1024)
    refine le_trans ?_ this
    norm_num)
  rw [truncf_of_nonneg _ (roundNearestEven_nonneg 53 _ hc0), Int.floor_eq_iff]
  constructor
  · refine le_trans ?_ hd0
    norm_num
  · refine lt_of_le_of_lt hd1 ?_
    norm_num

/-- C13 as stated fails in float arithmetic at the angle `-2 ^ (-30)`: `fmodf` leaves it as
it is, `x += 2 * PI` rounds the sum to the `float` nearest `2π`, which is not below
`2π`; the index before the mask is `1024`, not below `1024`; the mask changes it to `0`,
and `fast_sin` reads entry `0`. -/
theorem table_index_counterexample :
    IsFloat32 (-(1 / 2 ^ 30)) ∧
      reducedAngleF32 (-(1 / 2 ^ 30)) = 13176795 / 2 ^ 21 ∧
      ¬ reducedAngleF32 (-(1 / 2 ^ 30)) < 2 * Real.pi ∧
      rawIndexF32 (reducedAngleF32 (-(1 / 2 ^ 30))) = 1024 ∧
      ¬ rawIndexF32 (reducedAngleF32 (-(1 / 2 ^ 30))) < 1024 ∧
      Int.land (rawIndexF32 (reducedAngleF32 (-(1 / 2 ^ 30)))) ((SIN_TABLE_SIZE : ℤ) - 1) = 0 ∧
      Int.land (rawIndexF32 (reducedAngleF32 (-(1 / 2 ^ 30)))) ((SIN_TABLE_SIZE : ℤ) - 1) ≠
        rawIndexF32 (reducedAngleF32 (-(1 / 2 ^ 30))) ∧
      ∀ sin_table : ℕ → ℝ, fast_sin_f32 sin_table (-(1 / 2 ^ 30)) = sin_table 0 := by
  have hred := reducedAngleF32_small_negative
  have hidx : rawIndexF32 (reducedAngleF32 (-(1 / 2 ^ 30))) = 1024 := by
    rw [hred]
    exact rawIndexF32_F2PI
  have hmask : Int.land (rawIndexF32 (reducedAngleF32 (-(1 / 2 ^ 30))))
      ((SIN_TABLE_SIZE : ℤ) - 1) = 0 := by
    rw [hidx]
    exact land_1024
  refine ⟨⟨-1, -30, by norm_num, by norm_num, by norm_num, by norm_num⟩, hred, ?_, hidx, ?_,
    hmask, ?_, ?_⟩
  · rw [hred, not_lt]
    have := Real.pi_lt_d20
    norm_num at this ⊢
    linarith
  · rw [hidx]
    exact lt_irrefl _
  · rw [hmask, hidx]
    norm_num
  · intro sin_table
    unfold fast_sin_f32
    simp only []
    rw [hmask]
    rfl

/-- C13, amended: in float arithmetic, for every finite `float` angle `x`, the reduced
angle that `fast_sin` computes lies between `0` and the `float` nearest `2π`
(`6.2831854820251465`, which it can reach), the index `(int)(reduced / (2π) * 1024)`
lies in `[0, 1024]` before the mask, the mask `& 1023` leaves an index below `1024`
unchanged and changes `1024` to `0`, and the entry read from `sin_table` is the one at
the masked index, inside the table. -/
theorem table_index_in_bounds (sin_table : ℕ → ℝ) (x : ℝ) (hx : IsFloat32 x) :
    (0 ≤ reducedAngleF32 x ∧ reducedAngleF32 x ≤ 13176795 / 2 ^ 21) ∧
      (0 ≤ rawIndexF32 (reducedAngleF32 x) ∧ rawIndexF32 (reducedAngleF32 x) ≤ 1024) ∧
      (rawIndexF32 (reducedAngleF32 x) < 1024 →
        Int.land (rawIndexF32 (reducedAngleF32 x)) ((SIN_TABLE_SIZE : ℤ) - 1) =
          rawIndexF32 (reducedAngleF32 x)) ∧
      (rawIndexF32 (reducedAngleF32 x) = 1024 →
        Int.land (rawIndexF32 (reducedAngleF32 x)) ((SIN_TABLE_SIZE : ℤ) - 1) = 0) ∧
      (Int.land (rawIndexF32 (reducedAngleF32 x)) ((SIN_TABLE_SIZE : ℤ) - 1)).toNat <
        SIN_TABLE_SIZE ∧
      fast_sin_f32 sin_table x =
        sin_table
          (Int.land (rawIndexF32 (reducedAngleF32 x)) ((SIN_TABLE_SIZE : ℤ) - 1)).toNat := by
  obtain ⟨h0, h1⟩ := reducedAngleF32_mem x hx
  obtain ⟨hi0, hi1⟩ := rawIndexF32_mem (reducedAngleF32 x) h0 h1
  have hlt : rawIndexF32 (reducedAngleF32 x) < 1024 →
      Int.land (rawIndexF32 (reducedAngleF32 x)) ((SIN_TABLE_SIZE : ℤ) - 1) =
        rawIndexF32 (reducedAngleF32 x) := by
    intro h
    exact land_mask_of_lt _ hi0 (by simpa [SIN_TABLE_SIZE] using h)
  have heq : rawIndexF32 (reducedAngleF32 x) = 1024 →
      Int.land (rawIndexF32 (reducedAngleF32 x)) ((SIN_TABLE_SIZE : ℤ) - 1) = 0 := by
    intro h
    rw [h]
    exact land_1024
  refine ⟨⟨h0, h1⟩, ⟨hi0, hi1⟩, hlt, heq, ?_, rfl⟩
  rcases hi1.lt_or_eq with h | h
  · rw [hlt h]
    have := Int.toNat_of_nonneg hi0
    have hS : SIN_TABLE_SIZE = 1024 := rfl
    omega
  · rw [heq h]
    decide

/-- C13, amended, at a concrete input: the angle `-2 ^ (-30)`. -/
theorem table_index_in_bounds_witness :
    IsFloat32 (-(1 / 2 ^ 30)) ∧
      0 ≤ rawIndexF32 (reducedAngleF32 (-(1 / 2 ^ 30))) ∧
      rawIndexF32 (reducedAngleF32 (-(1 / 2 ^ 30))) ≤ 1024 :=
  have hx : IsFloat32 (-(1 / 2 ^ 30)) :=
    ⟨-1, -30, by norm_num, by norm_num, by norm_num, by norm_num⟩
  ⟨hx, (table_index_in_bounds (fun _ => 0) (-(1 / 2 ^ 30)) hx).2.1⟩

/-! ## The colour boost in float arithmetic -/

/-- The `float` constant `0.1f`. -/
theorem roundF32_tenth : roundF32 0.1 = 13421773 / 2 ^ 27 := by
  unfold roundF32
  rw [roundNearestEven_eq 24 _ (-4) 13421773 (by norm_num) (by norm_num) (by
    rw [abs_lt]
    norm_num)]
  norm_num

/-- The brightness floor `255 * min_brightness` in float arithmetic is `25.5`. -/
theorem floorF32_eq : roundF32 (255 * roundF32 0.1) = 51 / 2 := by
  rw [roundF32_tenth]
  unfold roundF32
  rw [roundNearestEven_eq 24 _ 4 13369344 (by norm_num) (by norm_num) (by
    rw [abs_lt]
    norm_num)]
  norm_num

theorem minBrightnessF32_eq (c : RGB) :
    minBrightnessF32 c = ⟨max c.r (51 / 2), max c.g (51 / 2), max c.b (51 / 2)⟩ := by
  unfold minBrightnessF32
  simp only [floorF32_eq]

/-- The boost factor in float arithmetic, for a largest channel `m` in `(0, 255]`: it is
at least `1`, and `m` times it is within `255 * 2 ^ (-24)` of `255`. -/
theorem boostFactorF32_spec (m : ℝ) (hm0 : 0 < m) (hm1 : m ≤ 255) :
    1 ≤ roundF32 (255 / m) ∧ |m * roundF32 (255 / m) - 255| ≤ 255 * (2 : ℝ) ^ (-24 : ℤ) := by
  have hq : 0 < 255 / m := by positivity
  have hq1 : (1 : ℝ) ≤ 255 / m := by
    rw [le_div_iff₀ hm0]
    linarith
  unfold roundF32
  constructor
  · have := roundNearestEven_ge 24 (by norm_num) _ hq 1 0 (by norm_num) (by
      norm_num
      exact hq1)
    norm_num at this
    exact this
  · have herr := roundNearestEven_error 24 (255 / m) hq
    have e1 : m * roundNearestEven 24 (255 / m) - 255 =
        m * (roundNearestEven 24 (255 / m) - 255 / m) := by
      field_simp
      ring
    rw [e1, abs_mul, abs_of_pos hm0]
    have := mul_le_mul_of_nonneg_left herr hm0.le
    have e2 : m * (255 / m * (2 : ℝ) ^ (-((24 : ℕ) : ℤ))) = 255 * (2 : ℝ) ^ (-24 : ℤ) := by
      field_simp
      ring
    rw [e2] at this
    exact this

/-- One boosted channel in float arithmetic, for a channel `v` in `[0, m]` under a largest
channel `m` in `(0, 255]`: it is in `[0, 255 + 2 ^ (-16)]`, within `2 ^ (-15)` of the exact
`255 * v / m`, at least `255 - 2 ^ (-16)` for the largest channel itself, and as far from
zero as the channel is. -/
theorem boostedChannelF32_spec (m v : ℝ) (hm0 : 0 < m) (hm1 : m ≤ 255) (hv0 : 0 ≤ v)
    (hv1 : v ≤ m) :
    (0 ≤ roundF32 (v * roundF32 (255 / m)) ∧
        roundF32 (v * roundF32 (255 / m)) ≤ 16711681 / 2 ^ 16) ∧
      |roundF32 (v * roundF32 (255 / m)) - 255 * (v / m)| ≤ (2 : ℝ) ^ (-15 : ℤ) ∧
      (v = m → 16711679 / 2 ^ 16 ≤ roundF32 (v * roundF32 (255 / m))) ∧
      (v = 0 → roundF32 (v * roundF32 (255 / m)) = 0) ∧
      ((2 : ℝ) ^ (-100 : ℤ) ≤ v → (2 : ℝ) ^ (-100 : ℤ) ≤ roundF32 (v * roundF32 (255 / m))) := by
  obtain ⟨hk1, hmk⟩ := boostFactorF32_spec m hm0 hm1
  have hk0 : 0 < roundF32 (255 / m) := lt_of_lt_of_le one_pos hk1
  rw [abs_le] at hmk
  have hzero : v = 0 → roundF32 (v * roundF32 (255 / m)) = 0 := by
    intro h
    rw [h, zero_mul]
    exact roundNearestEven_zero 24
  rcases hv0.eq_or_lt with h | hvpos
  · -- the channel is zero
    have h' := hzero h.symm
    rw [h']
    refine ⟨⟨le_refl _, by norm_num⟩, ?_, ?_, fun _ => rfl, ?_⟩
    · rw [← h]
      norm_num
    · intro hvm
      exact absurd (h.trans hvm) hm0.ne
    · intro hv
      rw [← h] at hv
      exact absurd hv (not_le.mpr (two_zpow_pos _))
  · have hp : 0 < v * roundF32 (255 / m) := mul_pos hvpos hk0
    -- the exact product is within `255 * 2 ^ (-24)` of `255 * v / m`
    have hvm : v / m ≤ 1 := (div_le_one hm0).mpr hv1
    have hvm0 : 0 ≤ v / m := div_nonneg hv0 hm0.le
    have eprod : v * roundF32 (255 / m) - 255 * (v / m) =
        v / m * (m * roundF32 (255 / m) - 255) := by
      field_simp
      ring
    have hprod_hi : v * roundF32 (255 / m) - 255 * (v / m) ≤ 255 * (2 : ℝ) ^ (-24 : ℤ) := by
      rw [eprod]
      calc v / m * (m * roundF32 (255 / m) - 255)
          ≤ v / m * (255 * (2 : ℝ) ^ (-24 : ℤ)) := mul_le_mul_of_nonneg_left hmk.2 hvm0
        _ ≤ 1 * (255 * (2 : ℝ) ^ (-24 : ℤ)) :=
            mul_le_mul_of_nonneg_right hvm (by positivity)
        _ = 255 * (2 : ℝ) ^ (-24 : ℤ) := one_mul _
    have hprod_lo : -(255 * (2 : ℝ) ^ (-24 : ℤ)) ≤ v * roundF32 (255 / m) - 255 * (v / m) := by
      rw [eprod]
      have h1 : v / m * (-(255 * (2 : ℝ) ^ (-24 : ℤ))) ≤
          v / m * (m * roundF32 (255 / m) - 255) := mul_le_mul_of_nonneg_left hmk.1 hvm0
      have h2 : 1 * (-(255 * (2 : ℝ) ^ (-24 : ℤ))) ≤ v / m * (-(255 * (2 : ℝ) ^ (-24 : ℤ))) := by
        apply mul_le_mul_of_nonpos_right hvm
        have : (0 : ℝ) ≤ 255 * (2 : ℝ) ^ (-24 : ℤ) := by positivity
        linarith
      linarith
    have h255 : 255 * (v / m) ≤ 255 := by linarith
    have hpbound : v * roundF32 (255 / m) ≤ 255 + 255 * (2 : ℝ) ^ (-24 : ℤ) := by linarith
    have herr := roundNearestEven_error 24 _ hp
    rw [abs_le] at herr
    have hpe : v * roundF32 (255 / m) * (2 : ℝ) ^ (-((24 : ℕ) : ℤ)) ≤
        (255 + 255 * (2 : ℝ) ^ (-24 : ℤ)) * (2 : ℝ) ^ (-24 : ℤ) :=
      mul_le_mul_of_nonneg_right hpbound (by positivity)
    have hnum : (255 + 255 * (2 : ℝ) ^ (-24 : ℤ)) * (2 : ℝ) ^ (-24 : ℤ) +
        255 * (2 : ℝ) ^ (-24 : ℤ) ≤ (2 : ℝ) ^ (-15 : ℤ) := by norm_num
    have hout_le : roundF32 (v * roundF32 (255 / m)) ≤ 16711681 / 2 ^ 16 := by
      have := roundNearestEven_le 24 _ hp 16711681 (-16) (by norm_num) (by
        refine le_trans hpbound ?_
        norm_num)
      refine le_trans this ?_
      norm_num
    refine ⟨⟨roundNearestEven_nonneg 24 _ hp, hout_le⟩, ?_, ?_, hzero, ?_⟩
    · rw [abs_le]
      unfold roundF32 at herr hprod_hi hprod_lo hpe ⊢
      constructor <;> linarith
    · intro hveq
      have hmm : 255 * (v / m) = 255 := by
        rw [hveq, div_self hm0.ne']
        ring
      have := roundNearestEven_ge 24 (by norm_num) _ hp 16711679 (-16) (by norm_num) (by
        have : (255 : ℝ) - 255 * (2 : ℝ) ^ (-24 : ℤ) ≤ v * roundF32 (255 / m) := by linarith
        refine le_trans ?_ this
        norm_num)
      refine le_trans ?_ this
      norm_num
    · intro hv
      have h1 : (2 : ℝ) ^ (-100 : ℤ) ≤ v * roundF32 (255 / m) := by
        calc (2 : ℝ) ^ (-100 : ℤ) ≤ v := hv
          _ = v * 1 := (mul_one v).symm
          _ ≤ v * roundF32 (255 / m) := mul_le_mul_of_nonneg_left hk1 hv0
      have := roundNearestEven_ge 24 (by norm_num) _ hp 1 (-100) (by norm_num) (by
        rw [Nat.cast_one, one_mul]
        exact h1)
      rw [Nat.cast_one, one_mul] at this
      exact this

theorem colorBoostF32_of_pos (c : RGB) (h : 0 < max c.r (max c.g c.b)) :
    colorBoostF32 c = some
      ⟨roundF32 (c.r * roundF32 (255 / max c.r (max c.g c.b))),
        roundF32 (c.g * roundF32 (255 / max c.r (max c.g c.b))),
        roundF32 (c.b * roundF32 (255 / max c.r (max c.g c.b)))⟩ := by
  unfold colorBoostF32 fdiv
  simp only [gt_iff_lt, if_pos h, if_neg h.ne', Option.map_some']
  norm_num

theorem colorBoostF32_of_not_pos (c : RGB) (h : ¬ 0 < max c.r (max c.g c.b)) :
    colorBoostF32 c = some c := by
  unfold colorBoostF32
  simp only [gt_iff_lt, if_neg h]

/-- The cast to `Uint32` of a channel after the floor, in float arithmetic. -/
theorem toUint32_channelF32 (v : ℝ) (h0 : 51 / 2 ≤ v) (h1 : v ≤ 16711681 / 2 ^ 16) :
    (25 ≤ toUint32 v ∧ toUint32 v ≤ 255) ∧ (16711679 / 2 ^ 16 ≤ v → 254 ≤ toUint32 v) := by
  have hv0 : 0 ≤ v := by linarith
  have e := toUint32_eq_truncf v hv0 (by
    refine lt_of_le_of_lt h1 ?_
    norm_num)
  rw [truncf_of_nonneg v hv0] at e
  have hlo : (25 : ℤ) ≤ ⌊v⌋ := Int.le_floor.mpr (by
    push_cast
    linarith)
  have hhi : ⌊v⌋ < 256 := Int.floor_lt.mpr (by
    push_cast
    refine lt_of_le_of_lt h1 ?_
    norm_num)
  refine ⟨⟨by omega, by omega⟩, ?_⟩
  intro h
  have : (254 : ℤ) ≤ ⌊v⌋ := Int.le_floor.mpr (by
    push_cast
    refine le_trans ?_ h
    norm_num)
  omega

/-- C19 as stated fails in float arithmetic at the channels `(7, 0, 0)`: the boost factor
`255.0f / 7` rounds down, the product `7 * boost_factor` rounds to
`254.9999847412109375`, one `float` below `255`; the outputs are not all `25.5`, the
largest is not `255`, and it is packed as `254`. -/
theorem boost_saturation_counterexample :
    ∃ c' : RGB, boostAndFloorF32 ⟨7, 0, 0⟩ = some c' ∧
      c'.r = 16711679 / 2 ^ 16 ∧ c'.g = 25.5 ∧ c'.b = 25.5 ∧
      ¬ (c'.r = 25.5 ∧ c'.g = 25.5 ∧ c'.b = 25.5) ∧
      max c'.r (max c'.g c'.b) < 255 ∧
      max (toUint32 c'.r) (max (toUint32 c'.g) (toUint32 c'.b)) = 254 := by
  have hmax : max (7 : ℝ) (max 0 0) = 7 := by norm_num
  have hk : roundF32 (255 / 7) = 9549531 / 2 ^ 18 := by
    unfold roundF32
    rw [roundNearestEven_eq 24 _ 5 9549531 (by norm_num) (by norm_num) (by
      rw [abs_lt]
      norm_num)]
    norm_num
  have hprod : roundF32 (7 * (9549531 / 2 ^ 18)) = 16711679 / 2 ^ 16 := by
    unfold roundF32
    rw [roundNearestEven_eq 24 _ 7 16711679 (by norm_num) (by norm_num) (by
      rw [abs_lt]
      norm_num)]
    norm_num
  have hzero : roundF32 (0 * (9549531 / 2 ^ 18)) = 0 := by
    rw [zero_mul]
    exact roundNearestEven_zero 24
  have hval : boostAndFloorF32 ⟨7, 0, 0⟩ = some ⟨16711679 / 2 ^ 16, 51 / 2, 51 / 2⟩ := by
    unfold boostAndFloorF32
    rw [colorBoostF32_of_pos _ (by simp only [hmax]; norm_num), Option.map_some',
      minBrightnessF32_eq]
    simp only [hmax, hk, hprod, hzero]
    norm_num
  have hu1 : toUint32 (16711679 / 2 ^ 16) = 254 := by
    have e := toUint32_eq_truncf (16711679 / 2 ^ 16) (by norm_num) (by norm_num)
    rw [truncf_of_nonneg _ (by norm_num)] at e
    have hf : ⌊(16711679 / 2 ^ 16 : ℝ)⌋ = 254 := by
      rw [Int.floor_eq_iff]
      norm_num
    rw [hf] at e
    exact_mod_cast e
  have hu2 : toUint32 (51 / 2) = 25 := by
    have e := toUint32_eq_truncf (51 / 2) (by norm_num) (by norm_num)
    rw [truncf_of_nonneg _ (by norm_num)] at e
    have hf : ⌊(51 / 2 : ℝ)⌋ = 25 := by
      rw [Int.floor_eq_iff]
      norm_num
    rw [hf] at e
    exact_mod_cast e
  refine ⟨_, hval, rfl, by norm_num, by norm_num, ?_, ?_, ?_⟩
  · simp only []
    norm_num
  · simp only []
    norm_num
  · simp only [hu1, hu2]
    rfl

/-- C19, amended: in float arithmetic, for every triple of contrast-remapped channels in
`[0, 255]`, each channel `0` or at least `2 ^ (-100)` (so that no rounded value leaves the
normal range of `float`), after boosting and the brightness floor either all three output
channels are `25.5` (the case `max_component = 0`), or the largest output channel is
`255` up to one rounding step, between `255 - 2 ^ (-16)` and `255 + 2 ^ (-16)`, every
channel is in `[25.5, 255 + 2 ^ (-16)]`, and a channel above the floor is within
`2 ^ (-15)` of `255` times its ratio to the largest channel before the boost; so the
brightest channel is packed as `254`, `255` or `25`. -/
theorem boost_saturation_rounded (c : RGB) (hr : 0 ≤ c.r ∧ c.r ≤ 255)
    (hg : 0 ≤ c.g ∧ c.g ≤ 255) (hb : 0 ≤ c.b ∧ c.b ≤ 255)
    (nr : c.r = 0 ∨ (2 : ℝ) ^ (-100 : ℤ) ≤ c.r) (ng : c.g = 0 ∨ (2 : ℝ) ^ (-100 : ℤ) ≤ c.g)
    (nb : c.b = 0 ∨ (2 : ℝ) ^ (-100 : ℤ) ≤ c.b) :
    ∃ c' : RGB, boostAndFloorF32 c = some c' ∧
      ((max c.r (max c.g c.b) = 0 ∧ c'.r = 25.5 ∧ c'.g = 25.5 ∧ c'.b = 25.5 ∧
          max (toUint32 c'.r) (max (toUint32 c'.g) (toUint32 c'.b)) = 25) ∨
        (0 < max c.r (max c.g c.b) ∧
          (1 ≤ roundF32 (255 / max c.r (max c.g c.b)) ∧
            roundF32 (255 / max c.r (max c.g c.b)) ≤ (2 : ℝ) ^ (108 : ℤ)) ∧
          ((roundF32 (c.r * roundF32 (255 / max c.r (max c.g c.b))) = 0 ∨
              (2 : ℝ) ^ (-100 : ℤ) ≤
                roundF32 (c.r * roundF32 (255 / max c.r (max c.g c.b)))) ∧
            (roundF32 (c.g * roundF32 (255 / max c.r (max c.g c.b))) = 0 ∨
              (2 : ℝ) ^ (-100 : ℤ) ≤
                roundF32 (c.g * roundF32 (255 / max c.r (max c.g c.b)))) ∧
            (roundF32 (c.b * roundF32 (255 / max c.r (max c.g c.b))) = 0 ∨
              (2 : ℝ) ^ (-100 : ℤ) ≤
                roundF32 (c.b * roundF32 (255 / max c.r (max c.g c.b))))) ∧
          (255 - 1 / 2 ^ 16 ≤ max c'.r (max c'.g c'.b) ∧
            max c'.r (max c'.g c'.b) ≤ 255 + 1 / 2 ^ 16) ∧
          (25.5 ≤ c'.r ∧ c'.r ≤ 255 + 1 / 2 ^ 16) ∧
          (25.5 ≤ c'.g ∧ c'.g ≤ 255 + 1 / 2 ^ 16) ∧
          (25.5 ≤ c'.b ∧ c'.b ≤ 255 + 1 / 2 ^ 16) ∧
          (25.5 < c'.r → |c'.r - 255 * (c.r / max c.r (max c.g c.b))| ≤ 1 / 2 ^ 15) ∧
          (25.5 < c'.g → |c'.g - 255 * (c.g / max c.r (max c.g c.b))| ≤ 1 / 2 ^ 15) ∧
          (25.5 < c'.b → |c'.b - 255 * (c.b / max c.r (max c.g c.b))| ≤ 1 / 2 ^ 15) ∧
          (max (toUint32 c'.r) (max (toUint32 c'.g) (toUint32 c'.b)) = 254 ∨
            max (toUint32 c'.r) (max (toUint32 c'.g) (toUint32 c'.b)) = 255))) := by
  by_cases hm : 0 < max c.r (max c.g c.b)
  · -- some channel is positive: the boost is applied
    set m := max c.r (max c.g c.b) with hmdef
    have hm1 : m ≤ 255 := max_le hr.2 (max_le hg.2 hb.2)
    have hRm : c.r ≤ m := le_max_left _ _
    have hGm : c.g ≤ m := le_trans (le_max_left _ _) (le_max_right _ _)
    have hBm : c.b ≤ m := le_trans (le_max_right _ _) (le_max_right _ _)
    obtain ⟨hk1, -⟩ := boostFactorF32_spec m hm hm1
    obtain ⟨⟨r0, r1⟩, r2, r3, r4, r5⟩ := boostedChannelF32_spec m c.r hm hm1 hr.1 hRm
    obtain ⟨⟨g0, g1⟩, g2, g3, g4, g5⟩ := boostedChannelF32_spec m c.g hm hm1 hg.1 hGm
    obtain ⟨⟨b0, b1⟩, b2, b3, b4, b5⟩ := boostedChannelF32_spec m c.b hm hm1 hb.1 hBm
    have hwhich : c.r = m ∨ c.g = m ∨ c.b = m := by
      rcases max_choice c.r (max c.g c.b) with h | h
      · exact Or.inl h.symm
      · rcases max_choice c.g c.b with h' | h'
        · exact Or.inr (Or.inl (by rw [hmdef, h, h']))
        · exact Or.inr (Or.inr (by rw [hmdef, h, h']))
    -- the largest channel is a normal number, so the boost factor does not overflow
    have hmnorm : (2 : ℝ) ^ (-100 : ℤ) ≤ m := by
      rcases hwhich with h | h | h
      · rcases nr with z | n
        · exact absurd (z.symm.trans h) hm.ne
        · exact h ▸ n
      · rcases ng with z | n
        · exact absurd (z.symm.trans h) hm.ne
        · exact h ▸ n
      · rcases nb with z | n
        · exact absurd (z.symm.trans h) hm.ne
        · exact h ▸ n
    have hkhi : roundF32 (255 / m) ≤ (2 : ℝ) ^ (108 : ℤ) := by
      have hq : 0 < 255 / m := by positivity
      have hqle : 255 / m ≤ ((1 : ℕ) : ℝ) * (2 : ℝ) ^ (108 : ℤ) := by
        rw [div_le_iff₀ hm]
        have : ((1 : ℕ) : ℝ) * (2 : ℝ) ^ (108 : ℤ) * (2 : ℝ) ^ (-100 : ℤ) ≤
            ((1 : ℕ) : ℝ) * (2 : ℝ) ^ (108 : ℤ) * m :=
          mul_le_mul_of_nonneg_left hmnorm (by positivity)
        refine le_trans ?_ this
        norm_num
      have := roundNearestEven_le 24 _ hq 1 108 (by norm_num) hqle
      rw [Nat.cast_one, one_mul] at this
      exact this
    have hval : boostAndFloorF32 c = some
        ⟨max (roundF32 (c.r * roundF32 (255 / m))) (51 / 2),
          max (roundF32 (c.g * roundF32 (255 / m))) (51 / 2),
          max (roundF32 (c.b * roundF32 (255 / m))) (51 / 2)⟩ := by
      unfold boostAndFloorF32
      rw [colorBoostF32_of_pos c hm, Option.map_some', minBrightnessF32_eq]
    -- one output channel: its range and its ratio
    have hch : ∀ o : ℝ, 0 ≤ o → o ≤ 16711681 / 2 ^ 16 →
        (25.5 ≤ max o (51 / 2) ∧ max o (51 / 2) ≤ 255 + 1 / 2 ^ 16) ∧
          (51 / 2 ≤ max o (51 / 2) ∧ max o (51 / 2) ≤ 16711681 / 2 ^ 16) := by
      intro o _ h1
      have e : (25.5 : ℝ) = 51 / 2 := by norm_num
      have e' : (255 + 1 / 2 ^ 16 : ℝ) = 16711681 / 2 ^ 16 := by norm_num
      rw [e, e']
      exact ⟨⟨le_max_right _ _, max_le h1 (by norm_num)⟩,
        ⟨le_max_right _ _, max_le h1 (by norm_num)⟩⟩
    have hrat : ∀ o v : ℝ, |o - 255 * (v / m)| ≤ (2 : ℝ) ^ (-15 : ℤ) →
        25.5 < max o (51 / 2) → |max o (51 / 2) - 255 * (v / m)| ≤ 1 / 2 ^ 15 := by
      intro o v h hgt
      have hogt : 51 / 2 < o := by
        by_contra hcon
        rw [max_eq_right (not_lt.mp hcon)] at hgt
        norm_num at hgt
      rw [max_eq_left hogt.le]
      refine le_trans h ?_
      norm_num
    have hnormal : ∀ v o : ℝ, (v = 0 ∨ (2 : ℝ) ^ (-100 : ℤ) ≤ v) → (v = 0 → o = 0) →
        ((2 : ℝ) ^ (-100 : ℤ) ≤ v → (2 : ℝ) ^ (-100 : ℤ) ≤ o) →
        o = 0 ∨ (2 : ℝ) ^ (-100 : ℤ) ≤ o := by
      intro v o hv h1 h2
      rcases hv with z | n
      · exact Or.inl (h1 z)
      · exact Or.inr (h2 n)
    obtain ⟨cr, cr'⟩ := hch _ r0 r1
    obtain ⟨cg, cg'⟩ := hch _ g0 g1
    obtain ⟨cb, cb'⟩ := hch _ b0 b1
    obtain ⟨ur, ur'⟩ := toUint32_channelF32 _ cr'.1 cr'.2
    obtain ⟨ug, ug'⟩ := toUint32_channelF32 _ cg'.1 cg'.2
    obtain ⟨ub, ub'⟩ := toUint32_channelF32 _ cb'.1 cb'.2
    have e16 : (255 - 1 / 2 ^ 16 : ℝ) = 16711679 / 2 ^ 16 := by norm_num
    refine ⟨_, hval, Or.inr ⟨hm, ⟨hk1, hkhi⟩,
      ⟨hnormal _ _ nr r4 r5, hnormal _ _ ng g4 g5, hnormal _ _ nb b4 b5⟩, ⟨?_, ?_⟩, cr, cg, cb,
      hrat _ _ r2, hrat _ _ g2, hrat _ _ b2, ?_⟩⟩
    · rw [e16]
      rcases hwhich with h | h | h
      · exact le_trans (le_trans (r3 h) (le_max_left _ _)) (le_max_left _ _)
      · exact le_trans (le_trans (g3 h) (le_max_left _ _))
          (le_trans (le_max_left _ _) (le_max_right _ _))
      · exact le_trans (le_trans (b3 h) (le_max_left _ _))
          (le_trans (le_max_right _ _) (le_max_right _ _))
    · exact max_le cr.2 (max_le cg.2 cb.2)
    · have hle : max (toUint32 (max (roundF32 (c.r * roundF32 (255 / m))) (51 / 2)))
          (max (toUint32 (max (roundF32 (c.g * roundF32 (255 / m))) (51 / 2)))
            (toUint32 (max (roundF32 (c.b * roundF32 (255 / m))) (51 / 2)))) ≤ 255 :=
        max_le ur.2 (max_le ug.2 ub.2)
      have hge : 254 ≤ max (toUint32 (max (roundF32 (c.r * roundF32 (255 / m))) (51 / 2)))
          (max (toUint32 (max (roundF32 (c.g * roundF32 (255 / m))) (51 / 2)))
            (toUint32 (max (roundF32 (c.b * roundF32 (255 / m))) (51 / 2)))) := by
        rcases hwhich with h | h | h
        · exact le_trans (ur' (le_trans (r3 h) (le_max_left _ _))) (le_max_left _ _)
        · exact le_trans (ug' (le_trans (g3 h) (le_max_left _ _)))
            (le_trans (le_max_left _ _) (le_max_right _ _))
        · exact le_trans (ub' (le_trans (b3 h) (le_max_left _ _)))
            (le_trans (le_max_right _ _) (le_max_right _ _))
      simp only []
      omega
  · -- no channel is positive: all three are zero and the boost is skipped
    have hle : max c.r (max c.g c.b) ≤ 0 := not_lt.mp hm
    have e1 : c.r = 0 := le_antisymm (le_trans (le_max_left _ _) hle) hr.1
    have e2 : c.g = 0 :=
      le_antisymm (le_trans (le_trans (le_max_left _ _) (le_max_right _ _)) hle) hg.1
    have e3 : c.b = 0 :=
      le_antisymm (le_trans (le_trans (le_max_right _ _) (le_max_right _ _)) hle) hb.1
    have hzero : max c.r (max c.g c.b) = 0 := by
      rw [e1, e2, e3]
      simp
    have hfloor : max (0 : ℝ) (51 / 2) = 51 / 2 := max_eq_right (by norm_num)
    have hval : boostAndFloorF32 c = some ⟨51 / 2, 51 / 2, 51 / 2⟩ := by
      unfold boostAndFloorF32
      rw [colorBoostF32_of_not_pos c hm, Option.map_some', minBrightnessF32_eq]
      simp only [e1, e2, e3, hfloor]
    have hu : toUint32 (51 / 2) = 25 := by
      have e := toUint32_eq_truncf (51 / 2) (by norm_num) (by norm_num)
      rw [truncf_of_nonneg _ (by norm_num)] at e
      have hf : ⌊(51 / 2 : ℝ)⌋ = 25 := by
        rw [Int.floor_eq_iff]
        norm_num
      rw [hf] at e
      exact_mod_cast e
    refine ⟨_, hval, Or.inl ⟨hzero, by norm_num, by norm_num, by norm_num, ?_⟩⟩
    simp only [hu]
    rfl

/-- C19, amended, at a concrete input: the channels `(7, 0, 0)`. -/
theorem boost_saturation_rounded_witness :
    ((0 : ℝ) ≤ 7 ∧ (7 : ℝ) ≤ 255) ∧
      ∃ c' : RGB, boostAndFloorF32 ⟨7, 0, 0⟩ = some c' ∧
        (255 - 1 / 2 ^ 16 ≤ max c'.r (max c'.g c'.b) ∧
          max c'.r (max c'.g c'.b) ≤ 255 + 1 / 2 ^ 16) := by
  refine ⟨⟨by norm_num, by norm_num⟩, ?_⟩
  obtain ⟨c', hc', h⟩ := boost_saturation_rounded ⟨7, 0, 0⟩ ⟨by norm_num, by norm_num⟩
    ⟨le_refl 0, by norm_num⟩ ⟨le_refl 0, by norm_num⟩
    (Or.inr (by
      show (2 : ℝ) ^ (-100 : ℤ) ≤ 7
      have : (2 : ℝ) ^ (-100 : ℤ) ≤ 1 := zpow_le_one_of_nonpos₀ (by norm_num) (by norm_num)
      linarith))
    (Or.inl rfl) (Or.inl rfl)
  refine ⟨c', hc', ?_⟩
  rcases h with ⟨h0, -⟩ | ⟨-, -, -, h1, -⟩
  · norm_num at h0
  · exact h1

end EnergyGrid
